import Mathlib

/- Shallow embedding of the batched transducer decoding engine in
`src/examples/libriheavy/tools/beam_search.py` (functions
`greedy_search_batch` and `modified_beam_search`, classes `Hypothesis`,
`HypothesisList`, `DecodingResults`), together with proofs about it.

Modelling conventions, fixed once for the whole development:

* Log-probabilities live in a linearly ordered commutative ring `α` with a
  division operation (`ℝ`, `ℚ` and `ℤ` are instances).  Theorems about the
  log-domain sum instantiate `α := ℝ`; executable examples instantiate
  `α := ℤ` (concrete values are chosen so that every division performed is
  exact, where all division conventions agree).
* The opaque neural scoring function (`model.decoder` + `model.joiner` +
  `log_softmax`, with the temperature constant of `modified_beam_search`
  already applied) is modelled per utterance: an `Utt` carries its
  `encoder_out_lens` entry and a function `score t ctx v` giving the
  log-probability row entry for vocabulary id `v` at frame `t` under decoder
  context `ctx`.  A log-probability tensor row is the list
  `(List.range vocab_size).map (score t ctx)`.
* `torch.logaddexp` is the environment primitive `laexp`, passed explicitly;
  at `α := ℝ` it is instantiated with `fun a b => Real.log (Real.exp a + Real.exp b)`.
* `torch.nn.utils.rnn.pack_padded_sequence(..., enforce_sorted=False)` sorts
  the batch by length, descending, and exposes `batch_sizes` (the number of
  utterances with more than `t` valid frames, for each step `t`) and
  `unsorted_indices` (the inverse of the sorting permutation).  The sort is
  modelled as `List.insertionSort` of the index list under a total order
  (length descending, index ascending on ties); `torch.sort` performs some
  such permutation, and everything proved below about the entry points is
  independent of the tie order because the inverse permutation is applied
  before returning.
* `torch.Tensor.topk(k)` (`sorted=True`, its default) is modelled as the
  first `k` positions of the index list sorted by value descending, ties
  resolved to the earlier index; `torch.argmax` is modelled as the first
  maximal index.  Python's `max(key=f)` returns the first maximiser, and
  Python dicts iterate in insertion order with in-place value update
  preserving position; `HypothesisList` is embedded accordingly as an
  insertion-ordered association list keyed by the hypothesis key string.
* The in-place tensor update `torch.logaddexp(old, hyp, out=old.log_prob)`
  only ever writes to the merged hypothesis's own scalar, so the embedding
  is functional.
* The asserts on `encoder_out.size(0)` and `encoder_out_lens` (and the
  failure of `pack_padded_sequence` on non-positive lengths) reject invalid
  input before the first scoring call; both entry points are embedded as
  `Option`-valued, returning `none` exactly on those inputs.
* `utils.row_splits_to_row_ids` and `get_hyps_row_splits` only implement the
  ragged flattening of per-utterance hypothesis lists; the embedding keeps
  the per-utterance slice `row_splits[i]*vocab : row_splits[i+1]*vocab` of
  the flat `log_probs` vector as the per-utterance flattened candidate
  vector `jointVec`. -/

namespace BeamSearch

set_option linter.unusedSectionVars false

variable {α : Type} [LinearOrderedCommRing α] [Div α] {σ : Type} {β : Type}

/-- One utterance of the input batch: its `encoder_out_lens` entry and the
opaque scoring function applied to its encoder output row (see the header
comment). -/
structure Utt (α : Type) where
  len : ℤ
  score : ℕ → List ℤ → ℕ → α

/-- The attributes of the transducer model object that the two decoding
functions read: `model.decoder.blank_id`, the optional `model.unk_id`
attribute (`getattr(model, "unk_id", blank_id)`), `model.decoder.context_size`
and the vocabulary size of the joiner output. -/
structure Model where
  blank_id : ℤ
  unk_id : Option ℤ
  context_size : ℕ
  vocab_size : ℕ

/-- The value of `getattr(model, "unk_id", blank_id)`. -/
def Model.unkEff (m : Model) : ℤ := m.unk_id.getD m.blank_id

/-- The emission test `v not in (blank_id, unk_id)` shared by both decoding
loops. -/
def notSentinel (m : Model) (v : ℤ) : Bool :=
  decide (v ≠ m.blank_id ∧ v ≠ m.unkEff)

/-- The `DecodingResults` dataclass. -/
structure DecodingResults (α : Type) where
  timestamps : List (List ℕ)
  hyps : List (List ℤ)
  scores : List (List α)
deriving DecidableEq

/-- The Python slice `l[-c:]` (for `c = 0` this is the whole list). -/
def lastContext (c : ℕ) (l : List ℤ) : List ℤ :=
  if c = 0 then l else l.drop (l.length - c)

/-- Tail of `torch.argmax` over a vector: first maximal index. -/
def argmaxGo : ℕ → ℕ → α → List α → ℕ
  | _, bestIdx, _, [] => bestIdx
  | curIdx, bestIdx, bestVal, x :: xs =>
    if bestVal < x then argmaxGo (curIdx + 1) curIdx x xs
    else argmaxGo (curIdx + 1) bestIdx bestVal xs

/-- Model of `torch.argmax` over a vector, modelled as the first maximal index. -/
def argmaxList : List α → ℕ
  | [] => 0
  | x :: xs => argmaxGo 1 0 x xs

/-- Total order on positions of a key vector: key descending, index ascending
on ties.  Both descending sorts of the source (`torch.sort` inside
`pack_padded_sequence` and `torch.topk`) are modelled with it. -/
def rankLe {γ : Type} [LinearOrder γ] (key : ℕ → γ) (i j : ℕ) : Prop :=
  key j < key i ∨ (key i = key j ∧ i ≤ j)

instance {γ : Type} [LinearOrder γ] (key : ℕ → γ) :
    DecidableRel (rankLe key) := fun i j => by
  unfold rankLe; infer_instance

instance {γ : Type} [LinearOrder γ] (key : ℕ → γ) : IsTrans ℕ (rankLe key) where
  trans i j k hij hjk := by
    rcases hij with h1 | ⟨h1, h1'⟩ <;> rcases hjk with h2 | ⟨h2, h2'⟩
    · exact Or.inl (h2.trans h1)
    · exact Or.inl (h2 ▸ h1)
    · exact Or.inl (h1 ▸ h2)
    · exact Or.inr ⟨h1.trans h2, h1'.trans h2'⟩

instance {γ : Type} [LinearOrder γ] (key : ℕ → γ) : IsTotal ℕ (rankLe key) where
  total i j := by
    rcases lt_trichotomy (key i) (key j) with h | h | h
    · exact Or.inr (Or.inl h)
    · rcases Nat.le_total i j with h' | h'
      · exact Or.inl (Or.inr ⟨h, h'⟩)
      · exact Or.inr (Or.inr ⟨h.symm, h'⟩)
    · exact Or.inl (Or.inl h)

/-- Total order on positions of the length vector: length descending, index
ascending on ties.  `pack_padded_sequence`'s internal `torch.sort(lengths,
descending=True)` produces the index list sorted this way. -/
abbrev lenLe (lens : List ℤ) : ℕ → ℕ → Prop :=
  rankLe (fun i => lens.getD i 0)

/-- The `sorted_indices` permutation of `pack_padded_sequence`: utterance
indices sorted longest-first. -/
def sortPerm (lens : List ℤ) : List ℕ :=
  List.insertionSort (lenLe lens) (List.range lens.length)

/-- The `unsorted_indices` inverse permutation: position of each original
index inside `sortPerm`. -/
def invPerm (p : List ℕ) : List ℕ :=
  (List.range p.length).map (fun i => p.indexOf i)

/-- Entry `batch_sizes[t]` of the packed sequence: how many utterances have more
than `t` valid frames. -/
def bsAt (lens : List ℤ) (t : ℕ) : ℕ :=
  lens.countP (fun L => decide ((t : ℤ) < L))

/-- Number of decoding steps: the maximal valid length, i.e. the length of
`batch_sizes`. -/
def maxFrames (lens : List ℤ) : ℕ :=
  (lens.map Int.toNat).foldr max 0

/-- Default utterance used to totalise list indexing (never reached at valid
indices). -/
def dUtt : Utt α := ⟨0, fun _ _ _ => 0⟩

/-- Per-utterance state of `greedy_search_batch`: the growing token history
`hyps[i]` (context prefix included), `timestamps[i]` and `scores[i]`. -/
structure GState (α : Type) where
  hyp : List ℤ
  ts : List ℕ
  sc : List α
deriving DecidableEq

/-- Initial greedy state: `[-1] * (context_size - 1) + [blank_id]`, empty
timestamp and score lists. -/
def gInit (m : Model) : GState α :=
  ⟨List.replicate (m.context_size - 1) (-1) ++ [m.blank_id], [], []⟩

/-- One log-probability row of the joiner output (`log_probs[i]`), as a
function of the decoder context fed in. -/
def gRow (m : Model) (u : Utt α) (t : ℕ) (ctx : List ℤ) : List α :=
  (List.range m.vocab_size).map (u.score t ctx)

/-- One step of the greedy inner loop for one active utterance at frame `t`:
take the arg-max token of the row scored against the last `context_size`
tokens; append token, frame index and token log-probability unless the token
is a sentinel. -/
def gUpdate (m : Model) (u : Utt α) (t : ℕ) (s : GState α) : GState α :=
  let row := gRow m u t (lastContext m.context_size s.hyp)
  let y := argmaxList row
  if notSentinel m (y : ℤ) then
    ⟨s.hyp ++ [(y : ℤ)], s.ts ++ [t], s.sc ++ [row.getD y 0]⟩
  else s

/-- Apply `f j` to the first `bsz` positions (the still-active utterances) of
a state list, leaving the tail unchanged; `j` starts from the given offset. -/
def updActive (bsz : ℕ) (f : ℕ → σ → σ) : ℕ → List σ → List σ
  | _, [] => []
  | j, s :: rest => (if j < bsz then f j s else s) :: updActive bsz f (j + 1) rest

/-- The time loop of `greedy_search_batch` over the packed batch: step `T`
updates the first `bs T` (sorted-order) states at frame `T`. -/
def gLoop (m : Model) (uttAt : ℕ → Utt α) (bs : ℕ → ℕ) :
    ℕ → List (GState α) → List (GState α)
  | 0, states => states
  | T + 1, states => updActive (bs T) (fun j s => gUpdate m (uttAt j) T s) 0
      (gLoop m uttAt bs T states)

/-- Sorted-order view of the length vector. -/
def sortedLensOf (lens : List ℤ) : List ℤ :=
  (sortPerm lens).map (fun i => lens.getD i 0)

/-- Sorted-order view of the batch (`j`-th longest utterance). -/
def uttAtOf (batch : List (Utt α)) : ℕ → Utt α :=
  fun j => batch.getD ((sortPerm (batch.map Utt.len)).getD j 0) dUtt

/-- The final unsort loop shared by both entry points
(`ans.append(sorted_ans[unsorted_indices[i]])` for `i in range(N)`). -/
def unsortBy {γ : Type} (perm : List ℕ) (N : ℕ) (sortedList : List γ)
    (d : γ) : List γ :=
  (List.range N).map (fun i => sortedList.getD ((invPerm perm).getD i 0) d)

/-- The state list of `greedy_search_batch` after the whole time loop, in
sorted order. -/
def gStates (m : Model) (batch : List (Utt α)) : List (GState α) :=
  gLoop m (uttAtOf batch)
    (fun t => bsAt (sortedLensOf (batch.map Utt.len)) t)
    (maxFrames (batch.map Utt.len))
    ((List.range batch.length).map (fun _ => gInit m))

/-- The function `greedy_search_batch`.  Returns `none` exactly when the input is rejected
(empty batch or a non-positive valid length) before any scoring call. -/
def greedy_search_batch (m : Model) (batch : List (Utt α)) :
    Option (DecodingResults α) :=
  if 1 ≤ batch.length ∧ ∀ u ∈ batch, 0 < u.len then
    some ⟨unsortBy (sortPerm (batch.map Utt.len)) batch.length
            ((gStates m batch).map GState.ts) [],
          unsortBy (sortPerm (batch.map Utt.len)) batch.length
            ((gStates m batch).map (fun s => s.hyp.drop m.context_size)) [],
          unsortBy (sortPerm (batch.map Utt.len)) batch.length
            ((gStates m batch).map GState.sc) []⟩
  else none

/-- The `Hypothesis` dataclass: token history `ys` (context prefix included),
per-emitted-token log-probabilities `scores`, cumulative log-probability
`log_prob`, and per-emitted-token frame indices `timestamp`. -/
structure Hypothesis (α : Type) where
  ys : List ℤ
  scores : List α
  log_prob : α
  timestamp : List ℕ
deriving DecidableEq

/-- Property `Hypothesis.key`: the canonical string of `ys`. -/
def Hypothesis.key (h : Hypothesis α) : String :=
  String.intercalate "_" (h.ys.map toString)

/-- Default hypothesis used to totalise list indexing (never reached at valid
indices). -/
def dHyp : Hypothesis α := ⟨[], [], 0, []⟩

/-- Class `HypothesisList`: a Python dict from `key` to `Hypothesis`, embedded as
an insertion-ordered association list. -/
structure HypothesisList (α : Type) where
  data : List (String × Hypothesis α)
deriving DecidableEq

/-- The empty `HypothesisList()`. -/
def HypothesisList.empty : HypothesisList α := ⟨[]⟩

/-- Membership test `key in self`. -/
def HypothesisList.containsKey (l : HypothesisList α) (k : String) : Bool :=
  l.data.any (fun kv => kv.1 == k)

/-- Lookup `self._data[key]` as an `Option` (first entry with the key; keys are
unique in every list the code builds). -/
def HypothesisList.lookup (l : HypothesisList α) (k : String) :
    Option (Hypothesis α) :=
  (l.data.find? (fun kv => kv.1 == k)).map Prod.snd

/-- Method `HypothesisList.add`: if the key exists, update the stored hypothesis's
`log_prob` in place with `torch.logaddexp` (position and remaining fields
preserved); otherwise append the new entry. -/
def HypothesisList.add (laexp : α → α → α) (hyp : Hypothesis α)
    (l : HypothesisList α) : HypothesisList α :=
  if l.containsKey hyp.key then
    ⟨l.data.map (fun kv =>
      if kv.1 == hyp.key then
        (kv.1, ⟨kv.2.ys, kv.2.scores, laexp kv.2.log_prob hyp.log_prob,
                kv.2.timestamp⟩)
      else kv)⟩
  else ⟨l.data ++ [(hyp.key, hyp)]⟩

/-- Iteration order `list(self)`: the stored hypotheses in dict (insertion) order. -/
def HypothesisList.values (l : HypothesisList α) : List (Hypothesis α) :=
  l.data.map Prod.snd

/-- Python's `max(xs, key=f)` (first maximiser); `d` totalises the empty
case, on which Python raises. -/
def pyMaxBy (f : β → α) (d : β) : List β → β
  | [] => d
  | x :: xs => xs.foldl (fun acc h => if f acc < f h then h else acc) x

/-- Method `HypothesisList.get_most_probable`: the stored hypothesis with the
largest `log_prob`, normalised by `len(ys)` when `length_norm` is set. -/
def HypothesisList.get_most_probable (l : HypothesisList α)
    (length_norm : Bool) : Hypothesis α :=
  if length_norm then
    pyMaxBy (fun h => h.log_prob / (h.ys.length : α)) dHyp l.values
  else
    pyMaxBy Hypothesis.log_prob dHyp l.values

/-- Total order on positions of a score vector: value descending, index
ascending on ties (the model of `torch.topk`, see the header comment). -/
abbrev valLe (v : List α) : ℕ → ℕ → Prop :=
  rankLe (fun i => v.getD i 0)

/-- Indices of the vector sorted by value, descending (ties: earlier index
first). -/
def argsortDesc (v : List α) : List ℕ :=
  List.insertionSort (valLe v) (List.range v.length)

/-- Model of `v.topk(k)`: its index list. -/
def topkIndices (k : ℕ) (v : List α) : List ℕ :=
  (argsortDesc v).take k

/-- The per-hypothesis log-probability rows for one utterance at frame `t`
(`log_probs` rows belonging to that utterance's slice, before the cumulative
add). -/
def rowsOf (m : Model) (u : Utt α) (t : ℕ) (A : List (Hypothesis α)) :
    List (List α) :=
  A.map (fun hyp => gRow m u t (lastContext m.context_size hyp.ys))

/-- Slice `log_probs_t[row_splits[i] : row_splits[i+1]]`: the utterance's flat
token-level log-probability vector. -/
def tokVec (m : Model) (u : Utt α) (t : ℕ) (A : List (Hypothesis α)) :
    List α :=
  (rowsOf m u t A).flatten

/-- Slice `log_probs[row_splits[i] : row_splits[i+1]]` after
`log_probs.add_(ys_log_probs)`: the utterance's flat candidate cumulative
log-probability vector (parent `log_prob` + token log-probability, laid out
hypothesis-major). -/
def jointVec (m : Model) (u : Utt α) (t : ℕ) (A : List (Hypothesis α)) :
    List α :=
  ((A.zip (rowsOf m u t A)).map
    (fun p => p.2.map (fun x => p.1.log_prob + x))).flatten

/-- Build the `new_hyp` for one selected flat candidate index: recover the
parent (`topk_indexes // vocab_size`) and token (`topk_indexes % vocab_size`);
append token, token-level log-probability and frame index unless the token is
a sentinel; the new `log_prob` is the candidate cumulative value in either
case. -/
def mkCand (m : Model) (u : Utt α) (t : ℕ) (A : List (Hypothesis α))
    (idx : ℕ) : Hypothesis α :=
  let hyp := A.getD (idx / m.vocab_size) dHyp
  let newToken : ℤ := ((idx % m.vocab_size : ℕ) : ℤ)
  let newLogProb := (jointVec m u t A).getD idx 0
  if notSentinel m newToken then
    ⟨hyp.ys ++ [newToken], hyp.scores ++ [(tokVec m u t A).getD idx 0],
     newLogProb, hyp.timestamp ++ [t]⟩
  else
    ⟨hyp.ys, hyp.scores, newLogProb, hyp.timestamp⟩

/-- The list of `new_hyp`s built by the `for k in range(len(topk_hyp_indexes))`
loop for one utterance at frame `t`. -/
def stepNewHyps (m : Model) (beam : ℕ) (u : Utt α) (t : ℕ)
    (A : List (Hypothesis α)) : List (Hypothesis α) :=
  (topkIndices beam (jointVec m u t A)).map (mkCand m u t A)

/-- Fold `HypothesisList.add` over a list of hypotheses (the `B[i].add(new_hyp)`
calls of one step, in order). -/
def addAll (laexp : α → α → α) (hs : List (Hypothesis α))
    (l : HypothesisList α) : HypothesisList α :=
  hs.foldl (fun acc h => HypothesisList.add laexp h acc) l

/-- One full beam-search step for one utterance: build the selected
candidates and insert them into a fresh `HypothesisList` under merge
semantics. -/
def beamStepUtt (m : Model) (beam : ℕ) (laexp : α → α → α) (u : Utt α)
    (t : ℕ) (A : List (Hypothesis α)) : HypothesisList α :=
  addAll laexp (stepNewHyps m beam u t A) HypothesisList.empty

/-- The `for i in range(batch_size)` loop of one beam-search step: each
still-active utterance's hypothesis list is rebuilt from its current
hypotheses `A[i]`. -/
def stepUtts (m : Model) (beam : ℕ) (laexp : α → α → α) (uttAt : ℕ → Utt α)
    (t : ℕ) : ℕ → List (List (Hypothesis α)) → List (HypothesisList α)
  | _, [] => []
  | i, a :: rest =>
    beamStepUtt m beam laexp (uttAt i) t a ::
      stepUtts m beam laexp uttAt t (i + 1) rest

/-- The time loop of `modified_beam_search`: at step `T` the utterances whose
valid length is exhausted (`B[batch_size:]`) are moved to the front of
`finalized_B`, and the still-active prefix is stepped. -/
def beamLoop (m : Model) (beam : ℕ) (laexp : α → α → α) (uttAt : ℕ → Utt α)
    (bs : ℕ → ℕ) (B0 : List (HypothesisList α)) :
    ℕ → List (HypothesisList α) × List (HypothesisList α)
  | 0 => (B0, [])
  | T + 1 =>
    let st := beamLoop m beam laexp uttAt bs B0 T
    let fin := st.1.drop (bs T) ++ st.2
    let B := st.1.take (bs T)
    (stepUtts m beam laexp uttAt T 0 (B.map HypothesisList.values), fin)

/-- The seed hypothesis of each utterance's `HypothesisList`:
`ys = [blank_id] * context_size`, `log_prob = 0`, empty timestamp and score
lists. -/
def initHyp (m : Model) : Hypothesis α :=
  ⟨List.replicate m.context_size m.blank_id, [], 0, []⟩

/-- The `(B, finalized_B)` pair of `modified_beam_search` on the given batch
after `T` time steps (the reachable loop states of the search). -/
def beamStateAt (m : Model) (laexp : α → α → α) (batch : List (Utt α))
    (beam : ℕ) (T : ℕ) :
    List (HypothesisList α) × List (HypothesisList α) :=
  beamLoop m beam laexp (uttAtOf batch)
    (fun t => bsAt (sortedLensOf (batch.map Utt.len)) t)
    ((List.range batch.length).map
      (fun _ => HypothesisList.add laexp (initHyp m) HypothesisList.empty))
    T

/-- The function `modified_beam_search`.  Argument `laexp` is the environment's `torch.logaddexp`
(see the header comment); the temperature is already folded into each
utterance's scoring function.  Returns `none` exactly when the input is
rejected (empty batch or a non-positive valid length) before any scoring
call. -/
def bFinalLists (m : Model) (laexp : α → α → α) (batch : List (Utt α))
    (beam : ℕ) : List (HypothesisList α) :=
  (beamStateAt m laexp batch beam (maxFrames (batch.map Utt.len))).1 ++
    (beamStateAt m laexp batch beam (maxFrames (batch.map Utt.len))).2

/-- The `best_hyps` list of `modified_beam_search`: the length-normalised
most probable hypothesis of each final `HypothesisList`, in sorted order. -/
def bBest (m : Model) (laexp : α → α → α) (batch : List (Utt α)) (beam : ℕ) :
    List (Hypothesis α) :=
  (bFinalLists m laexp batch beam).map (fun b => b.get_most_probable true)

def modified_beam_search (m : Model) (laexp : α → α → α)
    (batch : List (Utt α)) (beam : ℕ) : Option (DecodingResults α) :=
  if 1 ≤ batch.length ∧ ∀ u ∈ batch, 0 < u.len then
    some ⟨unsortBy (sortPerm (batch.map Utt.len)) batch.length
            ((bBest m laexp batch beam).map Hypothesis.timestamp) [],
          unsortBy (sortPerm (batch.map Utt.len)) batch.length
            ((bBest m laexp batch beam).map
              (fun h => h.ys.drop m.context_size)) [],
          unsortBy (sortPerm (batch.map Utt.len)) batch.length
            ((bBest m laexp batch beam).map Hypothesis.scores) []⟩
  else none

/-- Iterate `gUpdate` on one utterance for its first `n` frames: the
per-utterance meaning of the greedy loop (proved below to agree with it). -/
def gIter (m : Model) (u : Utt α) : ℕ → GState α
  | 0 => gInit m
  | n + 1 => gUpdate m u n (gIter m u n)

/-- Iterate `beamStepUtt` on one utterance for its first `n` frames: the
per-utterance meaning of the beam-search loop (proved below to agree with
it). -/
def bIter (m : Model) (beam : ℕ) (laexp : α → α → α) (u : Utt α) :
    ℕ → HypothesisList α
  | 0 => HypothesisList.add laexp (initHyp m) HypothesisList.empty
  | n + 1 => beamStepUtt m beam laexp u n (bIter m beam laexp u n).values

/-- The final greedy state of one utterance. -/
def gDecodeUtt (m : Model) (u : Utt α) : GState α := gIter m u u.len.toNat

/-- The final `HypothesisList` of one utterance under beam search. -/
def bDecodeUtt (m : Model) (beam : ℕ) (laexp : α → α → α) (u : Utt α) :
    HypothesisList α :=
  bIter m beam laexp u u.len.toNat

/- ------------------------------------------------------------------ -/
/- Generic list helpers.                                              -/
/- ------------------------------------------------------------------ -/

lemma getD_map_of_lt {γ δ : Type} (f : γ → δ) (l : List γ) (i : ℕ) (d : γ)
    (d' : δ) (h : i < l.length) :
    (l.map f).getD i d' = f (l.getD i d) := by
  rw [List.getD_eq_getElem _ _ (by simpa using h), List.getElem_map,
    List.getD_eq_getElem _ _ h]

lemma getD_range_map {δ : Type} (f : ℕ → δ) (n i : ℕ) (d : δ) (h : i < n) :
    ((List.range n).map f).getD i d = f i := by
  rw [List.getD_eq_getElem _ _ (by simpa using h), List.getElem_map,
    List.getElem_range]

lemma range_map_getD {γ δ : Type} (l : List γ) (d : γ) (f : γ → δ) :
    (List.range l.length).map (fun i => f (l.getD i d)) = l.map f := by
  apply List.ext_getElem (by simp)
  intro i h1 h2
  simp only [List.getElem_map, List.getElem_range]
  rw [List.getD_eq_getElem _ _ (by simpa using h2)]

lemma drop_range (n b : ℕ) : (List.range n).drop b = List.range' b (n - b) := by
  apply List.ext_getElem (by simp)
  intro i h1 h2
  rw [List.getElem_drop, List.getElem_range, List.getElem_range']
  omega

lemma take_range_of_le {n b : ℕ} (h : b ≤ n) :
    (List.range n).take b = List.range b := by
  rw [List.take_range, inf_eq_left.mpr h]

lemma range'_eq_range_map (a n : ℕ) :
    List.range' a n = (List.range n).map (fun i => a + i) := by
  apply List.ext_getElem (by simp)
  intro i h1 h2
  rw [List.getElem_range', List.getElem_map, List.getElem_range]
  omega

/- ------------------------------------------------------------------ -/
/- The sorting permutation and the step schedule.                     -/
/- ------------------------------------------------------------------ -/

lemma sortPerm_perm (lens : List ℤ) :
    (sortPerm lens).Perm (List.range lens.length) :=
  List.perm_insertionSort _ _

lemma sortPerm_length (lens : List ℤ) :
    (sortPerm lens).length = lens.length := by
  rw [(sortPerm_perm lens).length_eq, List.length_range]

lemma sortPerm_mem_lt {lens : List ℤ} {i : ℕ} (h : i ∈ sortPerm lens) :
    i < lens.length :=
  List.mem_range.mp ((sortPerm_perm lens).mem_iff.mp h)

lemma sortPerm_getD_lt {lens : List ℤ} {j : ℕ} (h : j < lens.length) :
    (sortPerm lens).getD j 0 < lens.length := by
  apply sortPerm_mem_lt
  rw [List.getD_eq_getElem _ _ (by rw [sortPerm_length]; exact h)]
  exact List.getElem_mem _

lemma sortedLensOf_length (lens : List ℤ) :
    (sortedLensOf lens).length = lens.length := by
  simp [sortedLensOf, sortPerm_length]

lemma sortedLensOf_pairwise (lens : List ℤ) :
    (sortedLensOf lens).Pairwise (fun a b => b ≤ a) := by
  have hs : (sortPerm lens).Pairwise (lenLe lens) :=
    List.sorted_insertionSort (lenLe lens) (List.range lens.length)
  rw [sortedLensOf, List.pairwise_map]
  refine hs.imp ?_
  intro i j hij
  rcases hij with h | ⟨h, _⟩
  · exact le_of_lt h
  · exact le_of_eq h.symm

lemma sortedLensOf_mem {lens : List ℤ} {j : ℕ} (h : j < lens.length) :
    (sortedLensOf lens).getD j 0 ∈ lens := by
  rw [sortedLensOf,
    getD_map_of_lt _ _ _ 0 _ (by rw [sortPerm_length]; exact h)]
  rw [List.getD_eq_getElem _ _ (sortPerm_getD_lt h)]
  exact List.getElem_mem _

/-- In a descending list, position `j` has its entry above the threshold iff
`j` is below the count of entries above the threshold. -/
lemma sorted_count_iff (l : List ℤ) (hl : l.Pairwise (fun a b => b ≤ a))
    (t : ℤ) :
    ∀ j, j < l.length →
      (j < l.countP (fun L => decide (t < L)) ↔ t < l.getD j 0) := by
  induction l with
  | nil => intro j hj; simp at hj
  | cons x xs ih =>
    rcases List.pairwise_cons.mp hl with ⟨hx, hxs⟩
    intro j hj
    by_cases hx0 : t < x
    · rw [List.countP_cons_of_pos _ _ (by simpa using hx0)]
      cases j with
      | zero => simpa using hx0
      | succ j' =>
        rw [List.getD_cons_succ, Nat.succ_lt_succ_iff]
        exact ih hxs j' (by simpa using hj)
    · have hzero : xs.countP (fun L => decide (t < L)) = 0 := by
        rw [List.countP_eq_zero]
        intro a ha
        simp only [decide_eq_true_eq]
        intro hta
        exact hx0 (lt_of_lt_of_le hta (hx a ha))
      rw [List.countP_cons_of_neg _ _ (by simpa using hx0), hzero]
      constructor
      · intro h; omega
      · intro h
        exfalso
        cases j with
        | zero => exact hx0 (by simpa using h)
        | succ j' =>
          rw [List.getD_cons_succ] at h
          have hmem : xs.getD j' 0 ∈ xs := by
            rw [List.getD_eq_getElem _ _ (by simpa using hj)]
            exact List.getElem_mem _
          exact hx0 (lt_of_lt_of_le h (hx _ hmem))

lemma bsAt_le_length (lens : List ℤ) (t : ℕ) : bsAt lens t ≤ lens.length :=
  List.countP_le_length _

lemma toNat_le_maxFrames (lens : List ℤ) :
    ∀ L ∈ lens, L.toNat ≤ maxFrames lens := by
  unfold maxFrames
  induction lens with
  | nil => intro L hL; simp at hL
  | cons x xs ih =>
    intro L hL
    rcases List.mem_cons.mp hL with rfl | hL
    · simp only [List.map_cons, List.foldr_cons]
      exact le_max_left _ _
    · simp only [List.map_cons, List.foldr_cons]
      exact le_trans (ih L hL) (le_max_right _ _)

lemma invPerm_spec (lens : List ℤ) {i : ℕ} (hi : i < lens.length) :
    (invPerm (sortPerm lens)).getD i 0 < lens.length ∧
      (sortPerm lens).getD ((invPerm (sortPerm lens)).getD i 0) 0 = i := by
  have hmem : i ∈ sortPerm lens :=
    (sortPerm_perm lens).mem_iff.mpr (List.mem_range.mpr hi)
  have hidx : (sortPerm lens).indexOf i < (sortPerm lens).length :=
    List.indexOf_lt_length.mpr hmem
  have hgetD : (invPerm (sortPerm lens)).getD i 0 = (sortPerm lens).indexOf i := by
    rw [invPerm, getD_range_map _ _ _ _ (by rw [sortPerm_length]; exact hi)]
  rw [hgetD]
  refine ⟨by rw [sortPerm_length] at hidx; exact hidx, ?_⟩
  rw [List.getD_eq_getElem _ _ hidx]
  exact List.getElem_indexOf hidx

/- ------------------------------------------------------------------ -/
/- The greedy loop processes each utterance's own frames.             -/
/- ------------------------------------------------------------------ -/

lemma updActive_map_range' (bsz : ℕ) (f : ℕ → σ → σ) (g : ℕ → σ) :
    ∀ (n a : ℕ), updActive bsz f a ((List.range' a n).map g)
      = (List.range' a n).map (fun j => if j < bsz then f j (g j) else g j) := by
  intro n
  induction n with
  | zero => intro a; simp [updActive]
  | succ k ih =>
    intro a
    rw [List.range'_succ]
    simp only [List.map_cons, updActive]
    rw [ih (a + 1)]

/-- The combined property of the sorted schedule that the loop
characterisations need: position `j` is active at step `t` iff `t` is below
its valid length. -/
def ActiveIff (bs : ℕ → ℕ) (N : ℕ) (len : ℕ → ℕ) : Prop :=
  ∀ t j, j < N → (j < bs t ↔ t < len j)

lemma gLoop_char (m : Model) (uttAt : ℕ → Utt α) (bs : ℕ → ℕ) (N : ℕ)
    (len : ℕ → ℕ) (hbs : ActiveIff bs N len) :
    ∀ T, gLoop m uttAt bs T ((List.range N).map (fun _ => gInit m))
      = (List.range N).map (fun j => gIter m (uttAt j) (min T (len j))) := by
  intro T
  induction T with
  | zero => simp [gLoop, gIter]
  | succ T ih =>
    show updActive (bs T) (fun j s => gUpdate m (uttAt j) T s) 0 _ = _
    rw [ih, List.range_eq_range', updActive_map_range']
    apply List.map_congr_left
    intro j hj
    have hjN : j < N := by
      have := List.mem_range.mp (by rwa [← List.range_eq_range'] at hj)
      exact this
    by_cases hact : j < bs T
    · have hlt : T < len j := (hbs T j hjN).mp hact
      rw [if_pos hact, min_eq_left (by omega), min_eq_left (by omega)]
      rfl
    · have hge : len j ≤ T := by
        have := (hbs T j hjN).not.mp hact
        omega
      rw [if_neg hact, min_eq_right (by omega), min_eq_right (by omega)]

/-- The schedule of a valid batch satisfies `ActiveIff` with the sorted
lengths. -/
lemma activeIff_of_sorted (lens : List ℤ) :
    ActiveIff (fun t => bsAt (sortedLensOf lens) t) lens.length
      (fun j => ((sortedLensOf lens).getD j 0).toNat) := by
  intro t j hj
  have hlen : j < (sortedLensOf lens).length := by
    rw [sortedLensOf_length]; exact hj
  have hcount := sorted_count_iff (sortedLensOf lens) (sortedLensOf_pairwise lens) t j hlen
  unfold bsAt
  rw [hcount, Int.lt_toNat]

lemma min_maxFrames {lens : List ℤ} {j : ℕ} (hj : j < lens.length) :
    min (maxFrames lens) (((sortedLensOf lens).getD j 0).toNat)
      = ((sortedLensOf lens).getD j 0).toNat :=
  min_eq_right (toNat_le_maxFrames lens _ (sortedLensOf_mem hj))

lemma sortedLensOf_getD_eq {batch : List (Utt α)} {j : ℕ}
    (hj : j < batch.length) :
    (sortedLensOf (batch.map Utt.len)).getD j 0
      = (uttAtOf batch j).len := by
  have hlen : (batch.map Utt.len).length = batch.length := by simp
  rw [sortedLensOf,
    getD_map_of_lt _ _ _ 0 _ (by rw [sortPerm_length, hlen]; exact hj)]
  rw [uttAtOf]
  have hp : (sortPerm (batch.map Utt.len)).getD j 0 < batch.length := by
    have := @sortPerm_getD_lt (batch.map Utt.len) j (by rw [hlen]; exact hj)
    rwa [hlen] at this
  rw [getD_map_of_lt Utt.len batch _ dUtt 0 hp]

/-- The unsort loop undoes the sort: composing the per-position values of a
sorted-order map with `unsorted_indices` yields the caller-order map. -/
lemma unsortBy_map {γ : Type} (batch : List (Utt α)) (F : Utt α → γ) (d : γ) :
    unsortBy (sortPerm (batch.map Utt.len)) batch.length
      ((List.range batch.length).map (fun j => F (uttAtOf batch j))) d
    = batch.map F := by
  rw [unsortBy, ← range_map_getD batch dUtt F]
  apply List.map_congr_left
  intro i hi
  have hiN : i < batch.length := List.mem_range.mp hi
  have hlen : (batch.map Utt.len).length = batch.length := by simp
  obtain ⟨hq, hqi⟩ := invPerm_spec (batch.map Utt.len) (i := i)
    (by rw [hlen]; exact hiN)
  rw [hlen] at hq
  rw [getD_range_map _ _ _ _ hq, uttAtOf, hqi]

/-- The greedy state list equals the per-utterance decode of each sorted
utterance. -/
lemma gStates_char (m : Model) (batch : List (Utt α)) :
    gStates m batch
      = (List.range batch.length).map
          (fun j => gDecodeUtt m (uttAtOf batch j)) := by
  have hlen : (batch.map Utt.len).length = batch.length := by simp
  rw [gStates, gLoop_char m (uttAtOf batch) _ batch.length
    (fun j => ((sortedLensOf (batch.map Utt.len)).getD j 0).toNat)
    (by have := activeIff_of_sorted (batch.map Utt.len); rwa [hlen] at this)]
  apply List.map_congr_left
  intro j hj
  have hjN : j < batch.length := List.mem_range.mp hj
  rw [min_maxFrames (by rw [hlen]; exact hjN), sortedLensOf_getD_eq hjN,
    gDecodeUtt]

/-- Decomposition of `greedy_search_batch`: on a valid batch it returns, for
each utterance in caller order, the per-utterance greedy decode of that
utterance alone. -/
lemma greedy_search_batch_eq_map (m : Model) (batch : List (Utt α))
    (h1 : 1 ≤ batch.length) (h2 : ∀ u ∈ batch, 0 < u.len) :
    greedy_search_batch m batch = some
      ⟨batch.map (fun u => (gDecodeUtt m u).ts),
       batch.map (fun u => (gDecodeUtt m u).hyp.drop m.context_size),
       batch.map (fun u => (gDecodeUtt m u).sc)⟩ := by
  rw [greedy_search_batch, if_pos ⟨h1, h2⟩]
  rw [gStates_char, List.map_map, List.map_map, List.map_map]
  refine congrArg some ?_
  refine congrArg₂ (fun a p => DecodingResults.mk a p.1 p.2) ?_
    (congrArg₂ Prod.mk ?_ ?_)
  · exact unsortBy_map batch (fun u => (gDecodeUtt m u).ts) []
  · exact unsortBy_map batch (fun u => (gDecodeUtt m u).hyp.drop m.context_size) []
  · exact unsortBy_map batch (fun u => (gDecodeUtt m u).sc) []

/- ------------------------------------------------------------------ -/
/- The beam-search loop processes each utterance's own frames.        -/
/- ------------------------------------------------------------------ -/

lemma stepUtts_map_range' (m : Model) (beam : ℕ) (laexp : α → α → α)
    (uttAt : ℕ → Utt α) (t : ℕ) (g : ℕ → List (Hypothesis α)) :
    ∀ n a, stepUtts m beam laexp uttAt t a ((List.range' a n).map g)
      = (List.range' a n).map
          (fun j => beamStepUtt m beam laexp (uttAt j) t (g j)) := by
  intro n
  induction n with
  | zero => intro a; simp [stepUtts]
  | succ k ih =>
    intro a
    rw [List.range'_succ]
    simp only [List.map_cons, stepUtts]
    rw [ih (a + 1)]

/-- Size of the active pool carried into step `T` (all of it before the
first step, `batch_sizes[T-1]` afterwards). -/
def prevBs (bs : ℕ → ℕ) (N : ℕ) : ℕ → ℕ
  | 0 => N
  | T + 1 => bs T

lemma activeIff_mono {bs : ℕ → ℕ} {N : ℕ} {len : ℕ → ℕ}
    (hbs : ActiveIff bs N len) (hbsN : ∀ t, bs t ≤ N) (t : ℕ) :
    bs (t + 1) ≤ bs t := by
  by_contra hlt
  push_neg at hlt
  have hj : bs t < N := lt_of_lt_of_le hlt (hbsN (t + 1))
  have h2 := (hbs (t + 1) (bs t) hj).mp hlt
  have h3 : ¬ t < len (bs t) := (hbs t (bs t) hj).not.mp (lt_irrefl _)
  omega

lemma prevBs_le {bs : ℕ → ℕ} {N : ℕ} {len : ℕ → ℕ}
    (hbs : ActiveIff bs N len) (hbsN : ∀ t, bs t ≤ N) (T : ℕ) :
    bs T ≤ prevBs bs N T ∧ prevBs bs N T ≤ N := by
  cases T with
  | zero => exact ⟨hbsN 0, le_refl N⟩
  | succ T' => exact ⟨activeIff_mono hbs hbsN T', hbsN T'⟩

/-- Invariant of the beam-search time loop: the active pool is the prefix of
the per-utterance iterates (each stopped at its own length), the finalized
pool the corresponding suffix. -/
lemma beamLoop_char (m : Model) (beam : ℕ) (laexp : α → α → α)
    (uttAt : ℕ → Utt α) (bs : ℕ → ℕ) (N : ℕ) (len : ℕ → ℕ)
    (hbs : ActiveIff bs N len) (hbsN : ∀ t, bs t ≤ N) :
    ∀ T, (beamLoop m beam laexp uttAt bs
            ((List.range N).map
              (fun _ => HypothesisList.add laexp (initHyp m)
                HypothesisList.empty)) T).1
          = ((List.range N).map
              (fun j => bIter m beam laexp (uttAt j) (min T (len j)))).take
                (prevBs bs N T)
        ∧ (beamLoop m beam laexp uttAt bs
            ((List.range N).map
              (fun _ => HypothesisList.add laexp (initHyp m)
                HypothesisList.empty)) T).2
          = ((List.range N).map
              (fun j => bIter m beam laexp (uttAt j) (min T (len j)))).drop
                (prevBs bs N T) := by
  intro T
  induction T with
  | zero =>
    constructor
    · show (List.range N).map _ = _
      rw [List.take_of_length_le (by simp [prevBs])]
      apply List.map_congr_left
      intro j _
      simp [bIter]
    · show ([] : List (HypothesisList α)) = _
      rw [List.drop_eq_nil_of_le (by simp [prevBs])]
  | succ T ih =>
    obtain ⟨ih1, ih2⟩ := ih
    obtain ⟨hbp, hpN⟩ := prevBs_le hbs hbsN T
    have hdrop :
        ((List.range N).map
          (fun j => bIter m beam laexp (uttAt j) (min T (len j)))).drop (bs T)
        = ((List.range N).map
            (fun j => bIter m beam laexp (uttAt j)
              (min (T + 1) (len j)))).drop (bs T) := by
      rw [← List.map_drop, ← List.map_drop, drop_range]
      apply List.map_congr_left
      intro j hj
      have hjmem := List.mem_range'_1.mp hj
      have hjl : len j ≤ T := by
        have := (hbs T j (by omega)).not.mp (by omega)
        omega
      rw [min_eq_right (by omega), min_eq_right (by omega)]
    constructor
    · show stepUtts m beam laexp uttAt T 0 _ = _
      rw [ih1, List.take_take, min_eq_left hbp, ← List.map_take,
        take_range_of_le (le_trans hbp hpN), List.range_eq_range',
        List.map_map, stepUtts_map_range']
      rw [show prevBs bs N (T + 1) = bs T from rfl, ← List.map_take,
        take_range_of_le (le_trans hbp hpN), List.range_eq_range']
      apply List.map_congr_left
      intro j hj
      have hjmem := List.mem_range'_1.mp hj
      have hjb : j < bs T := by omega
      have hjlen : T < len j := (hbs T j (by omega)).mp hjb
      simp only [Function.comp]
      rw [min_eq_left (by omega), min_eq_left (by omega)]
      rfl
    · show (beamLoop m beam laexp uttAt bs _ T).1.drop (bs T) ++ _ = _
      rw [ih1, ih2, List.drop_take,
        show ((List.range N).map
            (fun j => bIter m beam laexp (uttAt j) (min T (len j)))).drop
              (prevBs bs N T)
          = (((List.range N).map
              (fun j => bIter m beam laexp (uttAt j)
                (min T (len j)))).drop (bs T)).drop (prevBs bs N T - bs T) by
            rw [List.drop_drop]; congr 1; omega,
        List.take_append_drop, hdrop]
      rfl

/-- The two pools joined recover all per-utterance final iterates, in sorted
order. -/
lemma beamLoop_append (m : Model) (beam : ℕ) (laexp : α → α → α)
    (uttAt : ℕ → Utt α) (bs : ℕ → ℕ) (N : ℕ) (len : ℕ → ℕ)
    (hbs : ActiveIff bs N len) (hbsN : ∀ t, bs t ≤ N) (T : ℕ) :
    (beamLoop m beam laexp uttAt bs
        ((List.range N).map
          (fun _ => HypothesisList.add laexp (initHyp m)
            HypothesisList.empty)) T).1
      ++ (beamLoop m beam laexp uttAt bs
          ((List.range N).map
            (fun _ => HypothesisList.add laexp (initHyp m)
              HypothesisList.empty)) T).2
      = (List.range N).map
          (fun j => bIter m beam laexp (uttAt j) (min T (len j))) := by
  obtain ⟨h1, h2⟩ := beamLoop_char m beam laexp uttAt bs N len hbs hbsN T
  rw [h1, h2, List.take_append_drop]

/-- The final hypothesis lists equal the per-utterance beam decode of each
sorted utterance. -/
lemma bFinalLists_char (m : Model) (laexp : α → α → α)
    (batch : List (Utt α)) (beam : ℕ) :
    bFinalLists m laexp batch beam
      = (List.range batch.length).map
          (fun j => bDecodeUtt m beam laexp (uttAtOf batch j)) := by
  have hlen : (batch.map Utt.len).length = batch.length := by simp
  have hbs : ActiveIff (fun t => bsAt (sortedLensOf (batch.map Utt.len)) t)
      batch.length
      (fun j => ((sortedLensOf (batch.map Utt.len)).getD j 0).toNat) := by
    have := activeIff_of_sorted (batch.map Utt.len); rwa [hlen] at this
  have hbsN : ∀ t, bsAt (sortedLensOf (batch.map Utt.len)) t ≤ batch.length := by
    intro t
    have := bsAt_le_length (sortedLensOf (batch.map Utt.len)) t
    rwa [sortedLensOf_length, hlen] at this
  rw [bFinalLists, beamStateAt,
    beamLoop_append m beam laexp (uttAtOf batch) _ batch.length _ hbs hbsN]
  apply List.map_congr_left
  intro j hj
  have hjN : j < batch.length := List.mem_range.mp hj
  rw [min_maxFrames (by rw [hlen]; exact hjN), sortedLensOf_getD_eq hjN,
    bDecodeUtt]

/-- Decomposition of `modified_beam_search`: on a valid batch it returns, for
each utterance in caller order, the per-utterance beam decode of that
utterance alone, finished by the length-normalised best-hypothesis
extraction. -/
lemma modified_beam_search_eq_map (m : Model) (laexp : α → α → α)
    (batch : List (Utt α)) (beam : ℕ)
    (h1 : 1 ≤ batch.length) (h2 : ∀ u ∈ batch, 0 < u.len) :
    modified_beam_search m laexp batch beam = some
      ⟨batch.map (fun u =>
          ((bDecodeUtt m beam laexp u).get_most_probable true).timestamp),
       batch.map (fun u =>
          ((bDecodeUtt m beam laexp u).get_most_probable true).ys.drop
            m.context_size),
       batch.map (fun u =>
          ((bDecodeUtt m beam laexp u).get_most_probable true).scores)⟩ := by
  rw [modified_beam_search, if_pos ⟨h1, h2⟩, bBest, bFinalLists_char]
  simp only [List.map_map]
  refine congrArg some ?_
  refine congrArg₂ (fun a p => DecodingResults.mk a p.1 p.2) ?_
    (congrArg₂ Prod.mk ?_ ?_)
  · exact unsortBy_map batch (fun u =>
      ((bDecodeUtt m beam laexp u).get_most_probable true).timestamp) []
  · exact unsortBy_map batch (fun u =>
      ((bDecodeUtt m beam laexp u).get_most_probable true).ys.drop
        m.context_size) []
  · exact unsortBy_map batch (fun u =>
      ((bDecodeUtt m beam laexp u).get_most_probable true).scores) []

/- ------------------------------------------------------------------ -/
/- HypothesisList: merge semantics of add.                            -/
/- ------------------------------------------------------------------ -/

lemma lookup_eq_none_of_not_contains {l : HypothesisList α} {k : String}
    (h : l.containsKey k = false) : l.lookup k = none := by
  rw [HypothesisList.lookup]
  rw [HypothesisList.containsKey] at h
  cases hf : l.data.find? (fun kv => kv.1 == k) with
  | none => rfl
  | some kv =>
    exfalso
    have hp := List.find?_some hf
    have hmem := List.mem_of_find?_eq_some hf
    have : l.data.any (fun kv => kv.1 == k) = true :=
      List.any_eq_true.mpr ⟨kv, hmem, hp⟩
    rw [h] at this
    exact Bool.false_ne_true this

lemma map_fst_preserving (hyp : Hypothesis α) (laexp : α → α → α)
    (kv : String × Hypothesis α) :
    ((fun kv : String × Hypothesis α =>
      if kv.1 == hyp.key then
        (kv.1, (⟨kv.2.ys, kv.2.scores, laexp kv.2.log_prob hyp.log_prob,
                kv.2.timestamp⟩ : Hypothesis α))
      else kv) kv).1 = kv.1 := by
  by_cases h : kv.1 == hyp.key <;> simp [h]

lemma containsKey_add (laexp : α → α → α) (hyp : Hypothesis α)
    (l : HypothesisList α) (k : String) :
    (l.add laexp hyp).containsKey k
      = (l.containsKey k || (hyp.key == k)) := by
  rw [HypothesisList.add]
  by_cases hc : l.containsKey hyp.key
  · rw [if_pos hc]
    show List.any _ _ = _
    rw [List.any_map]
    by_cases hk : hyp.key = k
    · subst hk
      rw [HypothesisList.containsKey] at hc
      simp only [beq_self_eq_true, Bool.or_true]
      rw [List.any_eq_true] at hc ⊢
      obtain ⟨kv, hmem, hp⟩ := hc
      exact ⟨kv, hmem, by
        simp only [Function.comp]
        rw [show ((fun kv : String × Hypothesis α =>
          if kv.1 == hyp.key then
            (kv.1, (⟨kv.2.ys, kv.2.scores, laexp kv.2.log_prob hyp.log_prob,
                    kv.2.timestamp⟩ : Hypothesis α))
          else kv) kv).1 = kv.1 from map_fst_preserving hyp laexp kv]
        exact hp⟩
    · have : (hyp.key == k) = false := by
        rw [beq_eq_false_iff_ne]; exact hk
      rw [this, Bool.or_false, HypothesisList.containsKey]
      congr 1
      funext kv
      simp only [Function.comp]
      rw [map_fst_preserving hyp laexp kv]
  · rw [if_neg hc]
    show List.any (l.data ++ [(hyp.key, hyp)]) _ = _
    rw [List.any_append, HypothesisList.containsKey]
    simp

lemma lookup_add_of_ne (laexp : α → α → α) (hyp : Hypothesis α)
    (l : HypothesisList α) (k : String) (hne : hyp.key ≠ k) :
    (l.add laexp hyp).lookup k = l.lookup k := by
  rw [HypothesisList.add]
  by_cases hc : l.containsKey hyp.key
  · rw [if_pos hc]
    show (List.find? _ (l.data.map _)).map Prod.snd = _
    rw [List.find?_map]
    rw [HypothesisList.lookup]
    have hpred : ((fun kv : String × Hypothesis α => kv.1 == k) ∘
        (fun kv : String × Hypothesis α =>
          if kv.1 == hyp.key then
            (kv.1, (⟨kv.2.ys, kv.2.scores, laexp kv.2.log_prob hyp.log_prob,
                    kv.2.timestamp⟩ : Hypothesis α))
          else kv)) = (fun kv : String × Hypothesis α => kv.1 == k) := by
      funext kv
      simp only [Function.comp]
      rw [map_fst_preserving hyp laexp kv]
    rw [hpred]
    cases hf : l.data.find? (fun kv => kv.1 == k) with
    | none => rfl
    | some kv0 =>
      have hp := List.find?_some hf
      have hk0 : kv0.1 = k := by rwa [beq_iff_eq] at hp
      have hne0 : kv0.1 ≠ hyp.key := by
        rw [hk0]
        exact fun h => hne h.symm
      simp only [Option.map_some']
      rw [if_neg (show ¬((kv0.1 == hyp.key) = true) by simp [hne0])]
  · rw [if_neg hc]
    show (List.find? _ (l.data ++ [(hyp.key, hyp)])).map Prod.snd = _
    rw [List.find?_append, HypothesisList.lookup]
    cases hf : l.data.find? (fun kv => kv.1 == k) with
    | none =>
      simp only [Option.none_or]
      have : ((hyp.key, hyp).1 == k) = false := by
        rw [beq_eq_false_iff_ne]; exact hne
      simp [List.find?, this]
    | some kv0 => rfl

lemma lookup_add_merge (laexp : α → α → α) (hyp : Hypothesis α)
    (l : HypothesisList α) (hc : l.containsKey hyp.key = true) :
    (l.add laexp hyp).lookup hyp.key
      = (l.lookup hyp.key).map (fun old =>
          ⟨old.ys, old.scores, laexp old.log_prob hyp.log_prob,
           old.timestamp⟩) := by
  rw [HypothesisList.add, if_pos hc]
  show (List.find? _ (l.data.map _)).map Prod.snd = _
  rw [List.find?_map]
  rw [HypothesisList.lookup]
  have hpred : ((fun kv : String × Hypothesis α => kv.1 == hyp.key) ∘
      (fun kv : String × Hypothesis α =>
        if kv.1 == hyp.key then
          (kv.1, (⟨kv.2.ys, kv.2.scores, laexp kv.2.log_prob hyp.log_prob,
                  kv.2.timestamp⟩ : Hypothesis α))
        else kv)) = (fun kv : String × Hypothesis α => kv.1 == hyp.key) := by
    funext kv
    simp only [Function.comp]
    rw [map_fst_preserving hyp laexp kv]
  rw [hpred]
  cases hf : l.data.find? (fun kv => kv.1 == hyp.key) with
  | none => rfl
  | some kv0 =>
    have hp := List.find?_some hf
    simp only [Option.map_some']
    rw [if_pos hp]

lemma lookup_add_new (laexp : α → α → α) (hyp : Hypothesis α)
    (l : HypothesisList α) (hc : l.containsKey hyp.key = false) :
    (l.add laexp hyp).lookup hyp.key = some hyp := by
  rw [HypothesisList.add, if_neg (by rw [hc]; exact Bool.false_ne_true)]
  show (List.find? _ (l.data ++ [(hyp.key, hyp)])).map Prod.snd = _
  rw [List.find?_append]
  have hnone : l.data.find? (fun kv => kv.1 == hyp.key) = none := by
    have := lookup_eq_none_of_not_contains hc
    rw [HypothesisList.lookup] at this
    cases hf : l.data.find? (fun kv => kv.1 == hyp.key) with
    | none => rfl
    | some kv0 => rw [hf] at this; exact absurd this (by simp)
  rw [hnone]
  simp [List.find?]

/- ------------------------------------------------------------------ -/
/- Folding add: only same-key insertions matter for one key.          -/
/- ------------------------------------------------------------------ -/

/-- Two hypothesis lists that agree at key `k` (same lookup, same
membership). -/
def KeyAgree (k : String) (s₁ s₂ : HypothesisList α) : Prop :=
  s₁.lookup k = s₂.lookup k ∧ s₁.containsKey k = s₂.containsKey k

lemma keyAgree_add_same {k : String} (laexp : α → α → α) (hyp : Hypothesis α)
    {s₁ s₂ : HypothesisList α} (h : KeyAgree k s₁ s₂) :
    KeyAgree k (s₁.add laexp hyp) (s₂.add laexp hyp) := by
  obtain ⟨hl, hc⟩ := h
  constructor
  · by_cases hk : hyp.key = k
    · subst hk
      by_cases hc1 : s₁.containsKey hyp.key
      · rw [lookup_add_merge laexp hyp s₁ hc1,
          lookup_add_merge laexp hyp s₂ (by rw [← hc]; exact hc1), hl]
      · have hc1' : s₁.containsKey hyp.key = false := by
          cases h : s₁.containsKey hyp.key
          · rfl
          · exact absurd h hc1
        rw [lookup_add_new laexp hyp s₁ hc1',
          lookup_add_new laexp hyp s₂ (by rw [← hc]; exact hc1')]
    · rw [lookup_add_of_ne laexp hyp s₁ k hk,
        lookup_add_of_ne laexp hyp s₂ k hk, hl]
  · rw [containsKey_add, containsKey_add, hc]

lemma keyAgree_add_other {k : String} (laexp : α → α → α)
    {hyp : Hypothesis α} (s : HypothesisList α) (hk : hyp.key ≠ k) :
    KeyAgree k (s.add laexp hyp) s := by
  constructor
  · exact lookup_add_of_ne laexp hyp s k hk
  · rw [containsKey_add, beq_eq_false_iff_ne.mpr hk, Bool.or_false]

lemma keyAgree_addAll {k : String} (laexp : α → α → α) :
    ∀ (l : List (Hypothesis α)) {s₁ s₂ : HypothesisList α},
      KeyAgree k s₁ s₂ →
      KeyAgree k (addAll laexp l s₁)
        (addAll laexp (l.filter (fun h => h.key == k)) s₂) := by
  intro l
  induction l with
  | nil => intro s₁ s₂ h; exact h
  | cons x rest ih =>
    intro s₁ s₂ h
    by_cases hx : x.key = k
    · rw [List.filter_cons_of_pos (by simpa using hx)]
      exact ih (keyAgree_add_same laexp x h)
    · rw [List.filter_cons_of_neg (by simpa using hx)]
      show KeyAgree k (addAll laexp rest (s₁.add laexp x)) _
      refine ih ?_
      obtain ⟨hl1, hc1⟩ := keyAgree_add_other laexp s₁ hx
      obtain ⟨hl2, hc2⟩ := h
      exact ⟨hl1.trans hl2, hc1.trans hc2⟩

/-- Two paths with the same key folded into a fresh set: the survivor keeps
the first path's sequences and carries the log-add-exp of the two cumulative
log-probabilities. -/
lemma lookup_addAll_pair (laexp : α → α → α) (k : String)
    (h1 h2 : Hypothesis α) (l : List (Hypothesis α))
    (hfil : l.filter (fun h => h.key == k) = [h1, h2]) :
    (addAll laexp l HypothesisList.empty).lookup k
      = some ⟨h1.ys, h1.scores, laexp h1.log_prob h2.log_prob,
              h1.timestamp⟩ := by
  have hagree := @keyAgree_addAll _ _ _ k laexp l
    HypothesisList.empty HypothesisList.empty ⟨rfl, rfl⟩
  rw [hfil] at hagree
  rw [hagree.1]
  have hk1 : h1.key = k := by
    have : h1 ∈ l.filter (fun h => h.key == k) := by
      rw [hfil]; exact List.mem_cons_self _ _
    have := (List.mem_filter.mp this).2
    rwa [beq_iff_eq] at this
  have hk2 : h2.key = k := by
    have : h2 ∈ l.filter (fun h => h.key == k) := by
      rw [hfil]; exact List.mem_cons.mpr (Or.inr (List.mem_cons_self _ _))
    have := (List.mem_filter.mp this).2
    rwa [beq_iff_eq] at this
  show ((HypothesisList.empty.add laexp h1).add laexp h2).lookup k = _
  have hstep1 : (HypothesisList.empty (α := α)).containsKey h1.key = false := rfl
  have hstep2 : ((HypothesisList.empty.add laexp h1).containsKey h2.key) = true := by
    rw [containsKey_add, hk2, ← hk1]
    simp
  rw [← hk2, lookup_add_merge laexp h2 _ hstep2, hk2, ← hk1,
    lookup_add_new laexp h1 _ hstep1]
  rfl

/-- Membership after a single add: every stored hypothesis either keeps the
sequences of a previously stored one (possibly with merged `log_prob`) or is
the added hypothesis itself. -/
lemma mem_values_add (laexp : α → α → α) (hyp : Hypothesis α)
    (l : HypothesisList α) {h : Hypothesis α}
    (hmem : h ∈ (l.add laexp hyp).values) :
    (∃ h0 ∈ l.values, h.ys = h0.ys ∧ h.scores = h0.scores ∧
      h.timestamp = h0.timestamp) ∨ h = hyp := by
  rw [HypothesisList.add] at hmem
  by_cases hc : l.containsKey hyp.key
  · rw [if_pos hc] at hmem
    rw [HypothesisList.values, List.map_map] at hmem
    obtain ⟨kv, hkv, hval⟩ := List.mem_map.mp hmem
    left
    refine ⟨kv.2, List.mem_map.mpr ⟨kv, hkv, rfl⟩, ?_⟩
    simp only [Function.comp] at hval
    by_cases hif : (kv.1 == hyp.key) = true
    · rw [if_pos hif] at hval
      rw [← hval]
      exact ⟨rfl, rfl, rfl⟩
    · rw [if_neg hif] at hval
      rw [← hval]
      exact ⟨rfl, rfl, rfl⟩
  · rw [if_neg hc] at hmem
    rw [HypothesisList.values, List.map_append] at hmem
    rcases List.mem_append.mp hmem with hmem | hmem
    · exact Or.inl ⟨h, hmem, rfl, rfl, rfl⟩
    · right
      simp only [List.map_cons, List.map_nil, List.mem_singleton] at hmem
      exact hmem

/-- Membership after folding adds: every stored hypothesis keeps the
sequences of a seed hypothesis or of one of the inserted ones. -/
lemma mem_values_addAll (laexp : α → α → α) :
    ∀ (hs : List (Hypothesis α)) (l : HypothesisList α) {h : Hypothesis α},
      h ∈ (addAll laexp hs l).values →
      (∃ h0 ∈ l.values, h.ys = h0.ys ∧ h.scores = h0.scores ∧
        h.timestamp = h0.timestamp) ∨
      (∃ h0 ∈ hs, h.ys = h0.ys ∧ h.scores = h0.scores ∧
        h.timestamp = h0.timestamp) := by
  intro hs
  induction hs with
  | nil => intro l h hmem; exact Or.inl ⟨h, hmem, rfl, rfl, rfl⟩
  | cons x rest ih =>
    intro l h hmem
    rcases ih (l.add laexp x) hmem with ⟨h0, hh0, hseq⟩ | ⟨h0, hh0, hseq⟩
    · rcases mem_values_add laexp x l hh0 with ⟨h1, hh1, hseq'⟩ | rfl
      · exact Or.inl ⟨h1, hh1,
          hseq.1.trans hseq'.1, hseq.2.1.trans hseq'.2.1,
          hseq.2.2.trans hseq'.2.2⟩
      · exact Or.inr ⟨h0, List.mem_cons_self _ _, hseq⟩
    · exact Or.inr ⟨h0, List.mem_cons.mpr (Or.inr hh0), hseq⟩

/- ------------------------------------------------------------------ -/
/- Python max as first maximiser.                                     -/
/- ------------------------------------------------------------------ -/

lemma pyMaxBy_foldl_aux (f : β → α) :
    ∀ (xs : List β) (acc : β),
      (xs.foldl (fun acc h => if f acc < f h then h else acc) acc = acc ∨
        xs.foldl (fun acc h => if f acc < f h then h else acc) acc ∈ xs) ∧
      ∀ y, (y = acc ∨ y ∈ xs) →
        f y ≤ f (xs.foldl (fun acc h => if f acc < f h then h else acc) acc) := by
  intro xs
  induction xs with
  | nil =>
    intro acc
    refine ⟨Or.inl rfl, ?_⟩
    rintro y (rfl | hy)
    · exact le_refl _
    · simp at hy
  | cons z rest ih =>
    intro acc
    simp only [List.foldl_cons]
    obtain ⟨hmem, hbound⟩ := ih (if f acc < f z then z else acc)
    constructor
    · rcases hmem with heq | hmem
      · rw [heq]
        by_cases hz : f acc < f z
        · rw [if_pos hz]; exact Or.inr (List.mem_cons_self _ _)
        · rw [if_neg hz]; exact Or.inl rfl
      · exact Or.inr (List.mem_cons.mpr (Or.inr hmem))
    · rintro y (rfl | hy)
      · refine le_trans ?_ (hbound _ (Or.inl rfl))
        by_cases hz : f y < f z
        · rw [if_pos hz]; exact le_of_lt hz
        · rw [if_neg hz]
      · rcases List.mem_cons.mp hy with rfl | hy
        · refine le_trans ?_ (hbound _ (Or.inl rfl))
          by_cases hz : f acc < f y
          · rw [if_pos hz]
          · rw [if_neg hz]; exact le_of_not_lt hz
        · exact hbound _ (Or.inr hy)

/-- Python's `max(xs, key=f)` returns a member maximising `f`. -/
lemma pyMaxBy_spec (f : β → α) (d : β) (x : β) (xs : List β) :
    pyMaxBy f d (x :: xs) ∈ x :: xs ∧
      ∀ y ∈ x :: xs, f y ≤ f (pyMaxBy f d (x :: xs)) := by
  rw [pyMaxBy]
  obtain ⟨hmem, hbound⟩ := pyMaxBy_foldl_aux f xs x
  constructor
  · rcases hmem with heq | hmem
    · rw [heq]; exact List.mem_cons_self _ _
    · exact List.mem_cons.mpr (Or.inr hmem)
  · intro y hy
    rcases List.mem_cons.mp hy with rfl | hy
    · exact hbound _ (Or.inl rfl)
    · exact hbound _ (Or.inr hy)

/-- The `length_norm = True` extraction maximises `log_prob / len(ys)` over
the stored hypotheses (the first maximiser is returned). -/
lemma get_most_probable_spec (l : HypothesisList α)
    (hne : l.values ≠ []) :
    l.get_most_probable true ∈ l.values ∧
      ∀ h ∈ l.values,
        h.log_prob / (h.ys.length : α)
          ≤ (l.get_most_probable true).log_prob /
              ((l.get_most_probable true).ys.length : α) := by
  rw [HypothesisList.get_most_probable, if_pos rfl]
  cases hv : l.values with
  | nil => exact absurd hv hne
  | cons x xs =>
    exact pyMaxBy_spec (fun h => h.log_prob / (h.ys.length : α)) dHyp x xs

/- ------------------------------------------------------------------ -/
/- Selection properties of the top-k model.                           -/
/- ------------------------------------------------------------------ -/

lemma argsortDesc_perm (v : List α) :
    (argsortDesc v).Perm (List.range v.length) :=
  List.perm_insertionSort _ _

lemma argsortDesc_sorted (v : List α) :
    (argsortDesc v).Pairwise (valLe v) :=
  List.sorted_insertionSort _ _

lemma argsortDesc_nodup (v : List α) : (argsortDesc v).Nodup :=
  ((argsortDesc_perm v).nodup_iff).mpr (List.nodup_range _)

lemma topkIndices_length (k : ℕ) (v : List α) (hk : k ≤ v.length) :
    (topkIndices k v).length = k := by
  rw [topkIndices, List.length_take, argsortDesc,
    List.length_insertionSort, List.length_range]
  omega

lemma topkIndices_mem_lt {k : ℕ} {v : List α} {i : ℕ}
    (h : i ∈ topkIndices k v) : i < v.length := by
  have : i ∈ argsortDesc v := List.mem_of_mem_take h
  exact List.mem_range.mp ((argsortDesc_perm v).mem_iff.mp this)

lemma topkIndices_sorted (k : ℕ) (v : List α) :
    (topkIndices k v).Pairwise (valLe v) :=
  List.Pairwise.sublist (List.take_sublist k (argsortDesc v)) (argsortDesc_sorted v)

lemma topkIndices_nodup (k : ℕ) (v : List α) : (topkIndices k v).Nodup :=
  (List.take_sublist k (argsortDesc v)).nodup (argsortDesc_nodup v)

/-- Completeness of the selection: every unselected position is beaten by
every selected one — smaller value, or equal value and larger (later) flat
index. -/
lemma topkIndices_complete {k : ℕ} {v : List α} {i j : ℕ}
    (hi : i ∈ topkIndices k v) (hj : j < v.length)
    (hjn : j ∉ topkIndices k v) :
    v.getD j 0 < v.getD i 0 ∨ (v.getD i 0 = v.getD j 0 ∧ i < j) := by
  have hsplit : argsortDesc v = topkIndices k v ++ (argsortDesc v).drop k :=
    (List.take_append_drop k (argsortDesc v)).symm
  have hjmem : j ∈ argsortDesc v :=
    (argsortDesc_perm v).mem_iff.mpr (List.mem_range.mpr hj)
  have hjdrop : j ∈ (argsortDesc v).drop k := by
    rw [hsplit] at hjmem
    rcases List.mem_append.mp hjmem with h | h
    · exact absurd h hjn
    · exact h
  have hpw := argsortDesc_sorted v
  rw [hsplit] at hpw
  have hle : valLe v i j :=
    (List.pairwise_append.mp hpw).2.2 i hi j hjdrop
  have hne : i ≠ j := by
    intro heq
    subst heq
    have hnd := argsortDesc_nodup v
    rw [hsplit] at hnd
    exact (List.nodup_append.mp hnd).2.2 hi hjdrop
  rcases hle with h | ⟨h, h'⟩
  · exact Or.inl h
  · exact Or.inr ⟨h, lt_of_le_of_ne h' hne⟩

/- ------------------------------------------------------------------ -/
/- Layout of the flattened candidate vectors.                         -/
/- ------------------------------------------------------------------ -/

lemma gRow_length (m : Model) (u : Utt α) (t : ℕ) (ctx : List ℤ) :
    (gRow m u t ctx).length = m.vocab_size := by
  simp [gRow]

lemma tokVec_cons (m : Model) (u : Utt α) (t : ℕ) (x : Hypothesis α)
    (A : List (Hypothesis α)) :
    tokVec m u t (x :: A)
      = gRow m u t (lastContext m.context_size x.ys) ++ tokVec m u t A := by
  simp [tokVec, rowsOf]

lemma jointVec_cons (m : Model) (u : Utt α) (t : ℕ) (x : Hypothesis α)
    (A : List (Hypothesis α)) :
    jointVec m u t (x :: A)
      = (gRow m u t (lastContext m.context_size x.ys)).map
          (fun s => x.log_prob + s) ++ jointVec m u t A := by
  simp [jointVec, rowsOf]

lemma tokVec_length (m : Model) (u : Utt α) (t : ℕ) :
    ∀ A : List (Hypothesis α),
      (tokVec m u t A).length = A.length * m.vocab_size := by
  intro A
  induction A with
  | nil => simp [tokVec, rowsOf]
  | cons x rest ih =>
    rw [tokVec_cons, List.length_append, gRow_length, ih]
    simp only [List.length_cons]
    ring

lemma jointVec_length (m : Model) (u : Utt α) (t : ℕ) :
    ∀ A : List (Hypothesis α),
      (jointVec m u t A).length = A.length * m.vocab_size := by
  intro A
  induction A with
  | nil => simp [jointVec, rowsOf]
  | cons x rest ih =>
    rw [jointVec_cons, List.length_append, List.length_map, gRow_length, ih]
    simp only [List.length_cons]
    ring

lemma jointVec_getD (m : Model) (u : Utt α) (t : ℕ) :
    ∀ (A : List (Hypothesis α)) (hIdx v : ℕ), hIdx < A.length →
      v < m.vocab_size →
      (jointVec m u t A).getD (hIdx * m.vocab_size + v) 0
        = (A.getD hIdx dHyp).log_prob +
            u.score t (lastContext m.context_size (A.getD hIdx dHyp).ys) v := by
  intro A
  induction A with
  | nil => intro hIdx v hh _; simp at hh
  | cons x rest ih =>
    intro hIdx v hh hv
    cases hIdx with
    | zero =>
      rw [jointVec_cons, Nat.zero_mul, Nat.zero_add,
        List.getD_append _ _ _ _ (by rw [List.length_map, gRow_length]; exact hv),
        getD_map_of_lt _ _ _ 0 _ (by rw [gRow_length]; exact hv),
        List.getD_cons_zero]
      rw [gRow, getD_range_map _ _ _ _ hv]
    | succ hIdx' =>
      have hVle : ((gRow m u t (lastContext m.context_size x.ys)).map
          (fun s => x.log_prob + s)).length ≤ (hIdx' + 1) * m.vocab_size + v := by
        rw [List.length_map, gRow_length]
        have hsm : (hIdx' + 1) * m.vocab_size
            = hIdx' * m.vocab_size + m.vocab_size := by ring
        omega
      rw [jointVec_cons, List.getD_append_right _ _ _ _ hVle,
        List.getD_cons_succ]
      have harith : (hIdx' + 1) * m.vocab_size + v -
          ((gRow m u t (lastContext m.context_size x.ys)).map
            (fun s => x.log_prob + s)).length
          = hIdx' * m.vocab_size + v := by
        rw [List.length_map, gRow_length]
        have hsm : (hIdx' + 1) * m.vocab_size
            = hIdx' * m.vocab_size + m.vocab_size := by ring
        omega
      rw [harith]
      exact ih hIdx' v (by simpa using hh) hv

lemma tokVec_getD (m : Model) (u : Utt α) (t : ℕ) :
    ∀ (A : List (Hypothesis α)) (hIdx v : ℕ), hIdx < A.length →
      v < m.vocab_size →
      (tokVec m u t A).getD (hIdx * m.vocab_size + v) 0
        = u.score t (lastContext m.context_size (A.getD hIdx dHyp).ys) v := by
  intro A
  induction A with
  | nil => intro hIdx v hh _; simp at hh
  | cons x rest ih =>
    intro hIdx v hh hv
    cases hIdx with
    | zero =>
      rw [tokVec_cons, Nat.zero_mul, Nat.zero_add,
        List.getD_append _ _ _ _ (by rw [gRow_length]; exact hv),
        List.getD_cons_zero]
      rw [gRow, getD_range_map _ _ _ _ hv]
    | succ hIdx' =>
      have hVle : (gRow m u t (lastContext m.context_size x.ys)).length
          ≤ (hIdx' + 1) * m.vocab_size + v := by
        rw [gRow_length]
        have hsm : (hIdx' + 1) * m.vocab_size
            = hIdx' * m.vocab_size + m.vocab_size := by ring
        omega
      rw [tokVec_cons, List.getD_append_right _ _ _ _ hVle,
        List.getD_cons_succ]
      have harith : (hIdx' + 1) * m.vocab_size + v -
          (gRow m u t (lastContext m.context_size x.ys)).length
          = hIdx' * m.vocab_size + v := by
        rw [gRow_length]
        have hsm : (hIdx' + 1) * m.vocab_size
            = hIdx' * m.vocab_size + m.vocab_size := by ring
        omega
      rw [harith]
      exact ih hIdx' v (by simpa using hh) hv

/- ------------------------------------------------------------------ -/
/- Case analysis of one built candidate.                              -/
/- ------------------------------------------------------------------ -/

lemma getD_mem {γ : Type} {l : List γ} {i : ℕ} (d : γ) (h : i < l.length) :
    l.getD i d ∈ l := by
  rw [List.getD_eq_getElem _ _ h]
  exact List.getElem_mem _

/-- Every candidate built by the inner loop comes from a parent hypothesis in
`A`: a sentinel candidate keeps the parent's three sequences and only updates
`log_prob`; any other candidate appends the token, its token-level
log-probability and the frame index. -/
lemma mkCand_cases (m : Model) (u : Utt α) (t : ℕ) (A : List (Hypothesis α))
    (idx : ℕ) (hA : idx / m.vocab_size < A.length) :
    ∃ hp, hp ∈ A ∧
      ((notSentinel m ((idx % m.vocab_size : ℕ) : ℤ) = true ∧
        mkCand m u t A idx = ⟨hp.ys ++ [((idx % m.vocab_size : ℕ) : ℤ)],
          hp.scores ++ [(tokVec m u t A).getD idx 0],
          (jointVec m u t A).getD idx 0, hp.timestamp ++ [t]⟩) ∨
       (notSentinel m ((idx % m.vocab_size : ℕ) : ℤ) = false ∧
        mkCand m u t A idx = ⟨hp.ys, hp.scores,
          (jointVec m u t A).getD idx 0, hp.timestamp⟩)) := by
  refine ⟨A.getD (idx / m.vocab_size) dHyp, getD_mem dHyp hA, ?_⟩
  by_cases hs : notSentinel m ((idx % m.vocab_size : ℕ) : ℤ) = true
  · left
    refine ⟨hs, ?_⟩
    rw [mkCand]
    simp only [hs, if_true]
  · right
    refine ⟨by rw [Bool.eq_false_iff]; exact hs, ?_⟩
    rw [mkCand]
    simp only [Bool.not_eq_true] at hs
    simp only [hs, Bool.false_eq_true, if_false]

/- ------------------------------------------------------------------ -/
/- Invariants carried by every stored hypothesis.                     -/
/- ------------------------------------------------------------------ -/

/-- Invariant of every hypothesis stored after `n` beam-search steps: the
token history is the context prefix plus one token per timestamp entry, the
per-token score list is aligned, no emitted token is a sentinel, and the
timestamps are strictly increasing and below `n`. -/
def BInv (m : Model) (n : ℕ) (h : Hypothesis α) : Prop :=
  h.ys.length = m.context_size + h.timestamp.length ∧
  h.scores.length = h.timestamp.length ∧
  (∀ v ∈ h.ys.drop m.context_size, notSentinel m v = true) ∧
  h.timestamp.Pairwise (fun a b => a < b) ∧
  (∀ x ∈ h.timestamp, x < n)

lemma bInv_mono {m : Model} {n n' : ℕ} {h : Hypothesis α} (hle : n ≤ n')
    (hi : BInv m n h) : BInv m n' h :=
  ⟨hi.1, hi.2.1, hi.2.2.1, hi.2.2.2.1,
    fun x hx => lt_of_lt_of_le (hi.2.2.2.2 x hx) hle⟩

lemma bInv_of_seq {m : Model} {n : ℕ} {h h0 : Hypothesis α}
    (h1 : h.ys = h0.ys) (h2 : h.scores = h0.scores)
    (h3 : h.timestamp = h0.timestamp) (hi : BInv m n h0) : BInv m n h := by
  rw [BInv, h1, h2, h3]
  exact hi

lemma initHyp_bInv (m : Model) (n : ℕ) : BInv m n (initHyp (α := α) m) := by
  refine ⟨by simp [initHyp], by simp [initHyp], ?_, by simp [initHyp],
    by simp [initHyp]⟩
  intro v hv
  rw [show (initHyp (α := α) m).ys.drop m.context_size = [] from
    List.drop_eq_nil_of_le (by simp [initHyp])] at hv
  exact absurd hv (List.not_mem_nil v)

lemma bIter_zero_values (m : Model) (beam : ℕ) (laexp : α → α → α)
    (u : Utt α) : (bIter m beam laexp u 0).values = [initHyp m] := by
  show (HypothesisList.add laexp (initHyp m) HypothesisList.empty).values = _
  rw [HypothesisList.add, if_neg (by simp [HypothesisList.containsKey,
    HypothesisList.empty])]
  rfl

lemma stepNewHyps_inv (m : Model) (beam : ℕ) (u : Utt α) (t : ℕ)
    (A : List (Hypothesis α)) (hA : ∀ hp ∈ A, BInv m t hp) :
    ∀ h ∈ stepNewHyps m beam u t A, BInv m (t + 1) h := by
  intro h hmem
  rw [stepNewHyps] at hmem
  obtain ⟨idx, hidx, rfl⟩ := List.mem_map.mp hmem
  have hlt := topkIndices_mem_lt hidx
  rw [jointVec_length] at hlt
  have hdiv : idx / m.vocab_size < A.length :=
    Nat.div_lt_of_lt_mul (by rwa [mul_comm] at hlt)
  obtain ⟨hp, hpA, hcase⟩ := mkCand_cases m u t A idx hdiv
  obtain ⟨hl1, hl2, hsent', hpw, hbd⟩ := hA hp hpA
  rcases hcase with ⟨hsent, heq⟩ | ⟨hsent, heq⟩
  · rw [heq]
    have hctxle : m.context_size ≤ hp.ys.length := by omega
    refine ⟨by simp; omega, by simp; omega, ?_, ?_, ?_⟩
    · intro v hv
      rw [List.drop_append_of_le_length hctxle] at hv
      rcases List.mem_append.mp hv with hv | hv
      · exact hsent' v hv
      · rw [List.mem_singleton.mp hv]
        exact hsent
    · rw [List.pairwise_append]
      exact ⟨hpw, List.pairwise_singleton _ _,
        fun x hx y hy => by rw [List.mem_singleton.mp hy]; exact hbd x hx⟩
    · intro x hx
      rcases List.mem_append.mp hx with hx | hx
      · exact lt_trans (hbd x hx) (Nat.lt_succ_self t)
      · rw [List.mem_singleton.mp hx]
        exact Nat.lt_succ_self t
  · rw [heq]
    exact bInv_mono (Nat.le_succ t) ⟨hl1, hl2, hsent', hpw, hbd⟩

lemma bIter_inv (m : Model) (beam : ℕ) (laexp : α → α → α) (u : Utt α) :
    ∀ n, ∀ h ∈ (bIter m beam laexp u n).values, BInv m n h := by
  intro n
  induction n with
  | zero =>
    intro h hmem
    rw [bIter_zero_values] at hmem
    rw [List.mem_singleton.mp hmem]
    exact initHyp_bInv m 0
  | succ n ih =>
    intro h hmem
    show BInv m (n + 1) h
    have : h ∈ (addAll laexp
        (stepNewHyps m beam u n (bIter m beam laexp u n).values)
        HypothesisList.empty).values := hmem
    rcases mem_values_addAll laexp _ _ this with ⟨h0, hh0, _⟩ | ⟨h0, hh0, hseq⟩
    · exact absurd hh0 (List.not_mem_nil h0)
    · exact bInv_of_seq hseq.1 hseq.2.1 hseq.2.2
        (stepNewHyps_inv m beam u n _ (ih) h0 hh0)

/-- What the final extraction guarantees for an output hypothesis: aligned
emitted-token/score/timestamp lengths, no sentinel among emitted tokens,
strictly increasing timestamps. -/
def OutInv (m : Model) (h : Hypothesis α) : Prop :=
  (h.ys.drop m.context_size).length = h.timestamp.length ∧
  h.scores.length = h.timestamp.length ∧
  (∀ v ∈ h.ys.drop m.context_size, notSentinel m v = true) ∧
  h.timestamp.Pairwise (fun a b => a < b)

lemma bInv_outInv {m : Model} {n : ℕ} {h : Hypothesis α}
    (hi : BInv m n h) : OutInv m h := by
  obtain ⟨h1, h2, h3, h4, _⟩ := hi
  exact ⟨by rw [List.length_drop]; omega, h2, h3, h4⟩

lemma dHyp_outInv (m : Model) : OutInv m (dHyp (α := α)) := by
  refine ⟨by simp [dHyp], rfl, ?_, List.Pairwise.nil⟩
  intro v hv
  simp [dHyp] at hv

/-- The hypothesis returned for each utterance by the beam search satisfies
the output invariant. -/
lemma bDecode_best_outInv (m : Model) (beam : ℕ) (laexp : α → α → α)
    (u : Utt α) :
    OutInv m ((bDecodeUtt m beam laexp u).get_most_probable true) := by
  cases hv : (bDecodeUtt m beam laexp u).values with
  | nil =>
    have hd : (bDecodeUtt m beam laexp u).get_most_probable true = dHyp := by
      rw [HypothesisList.get_most_probable, if_pos rfl, hv]
      rfl
    rw [hd]
    exact dHyp_outInv m
  | cons x xs =>
    have hmem := (get_most_probable_spec (bDecodeUtt m beam laexp u)
      (by rw [hv]; exact List.cons_ne_nil x xs)).1
    exact bInv_outInv (bIter_inv m beam laexp u u.len.toNat _ hmem)

/- ------------------------------------------------------------------ -/
/- Greedy-state invariant.                                            -/
/- ------------------------------------------------------------------ -/

/-- Invariant of the greedy state after `n` steps (requires a positive
context size, which every transducer decoder has). -/
def GInv (m : Model) (n : ℕ) (s : GState α) : Prop :=
  s.hyp.length = m.context_size + s.ts.length ∧
  s.sc.length = s.ts.length ∧
  (∀ v ∈ s.hyp.drop m.context_size, notSentinel m v = true) ∧
  s.ts.Pairwise (fun a b => a < b) ∧
  (∀ x ∈ s.ts, x < n)

lemma gInit_inv (m : Model) (hctx : 1 ≤ m.context_size) (n : ℕ) :
    GInv m n (gInit (α := α) m) := by
  refine ⟨by simp [gInit]; omega, by simp [gInit], ?_, by simp [gInit],
    by simp [gInit]⟩
  intro v hv
  rw [show (gInit (α := α) m).hyp.drop m.context_size = [] from
    List.drop_eq_nil_of_le (by simp [gInit]; omega)] at hv
  exact absurd hv (List.not_mem_nil v)

lemma gUpdate_inv (m : Model) (u : Utt α) (t : ℕ) (s : GState α)
    (hi : GInv m t s) : GInv m (t + 1) (gUpdate m u t s) := by
  obtain ⟨h1, h2, h3, h4, h5⟩ := hi
  rw [gUpdate]
  by_cases hs : notSentinel m
      ((argmaxList (gRow m u t (lastContext m.context_size s.hyp)) : ℕ) : ℤ)
      = true
  · rw [if_pos hs]
    have hctxle : m.context_size ≤ s.hyp.length := by omega
    refine ⟨by simp; omega, by simp; omega, ?_, ?_, ?_⟩
    · intro v hv
      rw [List.drop_append_of_le_length hctxle] at hv
      rcases List.mem_append.mp hv with hv | hv
      · exact h3 v hv
      · rw [List.mem_singleton.mp hv]
        exact hs
    · rw [List.pairwise_append]
      exact ⟨h4, List.pairwise_singleton _ _,
        fun x hx y hy => by rw [List.mem_singleton.mp hy]; exact h5 x hx⟩
    · intro x hx
      rcases List.mem_append.mp hx with hx | hx
      · exact lt_trans (h5 x hx) (Nat.lt_succ_self t)
      · rw [List.mem_singleton.mp hx]
        exact Nat.lt_succ_self t
  · rw [if_neg hs]
    exact ⟨h1, h2, h3, h4,
      fun x hx => lt_trans (h5 x hx) (Nat.lt_succ_self t)⟩

lemma gIter_inv (m : Model) (u : Utt α) (hctx : 1 ≤ m.context_size) :
    ∀ n, GInv m n (gIter (α := α) m u n) := by
  intro n
  induction n with
  | zero => exact gInit_inv m hctx 0
  | succ n ih => exact gUpdate_inv m u n _ ih

/- ------------------------------------------------------------------ -/
/- Remaining shared lemmas.                                           -/
/- ------------------------------------------------------------------ -/

/-- On a vector whose in-range entries are all equal, the descending argsort
keeps the original index order (all comparisons are resolved by the index
tie-break). -/
lemma argsortDesc_const {v : List α}
    (hconst : ∀ i < v.length, ∀ j < v.length, v.getD i 0 = v.getD j 0) :
    argsortDesc v = List.range v.length := by
  rw [argsortDesc]
  apply List.Sorted.insertionSort_eq
  refine List.Pairwise.imp_of_mem ?_ (List.pairwise_lt_range v.length)
  intro i j hi hj hij
  exact Or.inr ⟨hconst i (List.mem_range.mp hi) j (List.mem_range.mp hj),
    le_of_lt hij⟩

lemma lookup_some_contains {l : HypothesisList α} {k : String}
    {old : Hypothesis α} (h : l.lookup k = some old) :
    l.containsKey k = true := by
  rw [HypothesisList.lookup] at h
  rw [Option.map_eq_some'] at h
  obtain ⟨kv, hkv, _⟩ := h
  rw [HypothesisList.containsKey, List.any_eq_true]
  refine ⟨kv, List.mem_of_find?_eq_some hkv, ?_⟩
  exact @List.find?_some _ (fun kv => kv.1 == k) kv l.data hkv

/-- Timestamp-only invariant of the greedy state (no positivity assumption
on the context size needed). -/
lemma gIter_ts_inv (m : Model) (u : Utt α) :
    ∀ n, (gIter m u n).ts.Pairwise (fun a b => a < b) ∧
      (∀ x ∈ (gIter m u n).ts, x < n) := by
  intro n
  induction n with
  | zero => exact ⟨by simp [gIter, gInit], by simp [gIter, gInit]⟩
  | succ n ih =>
    obtain ⟨hpw, hbd⟩ := ih
    show (gUpdate m u n (gIter m u n)).ts.Pairwise _ ∧
      ∀ x ∈ (gUpdate m u n (gIter m u n)).ts, x < n + 1
    rw [gUpdate]
    by_cases hs : notSentinel m
        ((argmaxList (gRow m u n
          (lastContext m.context_size (gIter m u n).hyp)) : ℕ) : ℤ) = true
    · rw [if_pos hs]
      constructor
      · rw [List.pairwise_append]
        exact ⟨hpw, List.pairwise_singleton _ _,
          fun x hx y hy => by rw [List.mem_singleton.mp hy]; exact hbd x hx⟩
      · intro x hx
        rcases List.mem_append.mp hx with hx | hx
        · exact lt_trans (hbd x hx) (Nat.lt_succ_self n)
        · rw [List.mem_singleton.mp hx]
          exact Nat.lt_succ_self n
    · rw [if_neg hs]
      exact ⟨hpw, fun x hx => lt_trans (hbd x hx) (Nat.lt_succ_self n)⟩

/-- The environment's `torch.logaddexp` on real scalars. -/
noncomputable def logSumExp (a b : ℝ) : ℝ :=
  Real.log (Real.exp a + Real.exp b)

/- ------------------------------------------------------------------ -/
/- Concrete example inputs used by witnesses and counterexamples.     -/
/- ------------------------------------------------------------------ -/

/-- Example model: blank id 0, no `unk_id` attribute, context size 2,
vocabulary size 2. -/
def exModel : Model := ⟨0, none, 2, 2⟩

/-- Stand-in for `torch.logaddexp` in integer-valued executable examples
whose conclusions do not depend on the merged value. -/
def exLaexpZ : ℤ → ℤ → ℤ := fun a b => max a b

/-- An utterance with valid length zero (invalid input). -/
def exUttZero : Utt ℤ := ⟨0, fun _ _ _ => 0⟩

/-- Two-frame utterance forcing a same-key collision at step 1 with
different timestamps: the paths blank-then-token-1 and token-1-then-blank
both spell `[0,0,1]`. -/
def exUttC2 : Utt ℤ :=
  ⟨2, fun t ctx v =>
    if t = 0 then -1
    else if ctx = [0, 1] then (if v = 0 then -3 else -20)
    else (if v = 1 then -2 else -20)⟩

/-- Two-frame utterance whose final hypothesis set separates the two
length-normalisation conventions: it holds `[0,0,1]` with cumulative `-24`
(one emitted token) and `[0,0,1,1]` with cumulative `-44` (two emitted
tokens); all divisions involved are exact. -/
def exUttC3 : Utt ℤ :=
  ⟨2, fun t ctx v =>
    if t = 0 then (if v = 0 then -2 else -4)
    else if ctx = [0, 1] then (if v = 1 then -40 else -200)
    else (if v = 1 then -22 else -200)⟩

/-- Two-frame utterance that emits token 1 at frame 0 and blank at frame 1. -/
def exUttA : Utt ℤ :=
  ⟨2, fun t _ v =>
    if t = 0 then (if v = 1 then -1 else -2) else (if v = 0 then -1 else -3)⟩

/-- One-frame utterance that emits blank only (empty output). -/
def exUttB : Utt ℤ := ⟨1, fun _ _ v => if v = 0 then -1 else -5⟩

/-- Two-frame utterance that emits token 1 at both frames. -/
def exUttD : Utt ℤ := ⟨2, fun _ _ v => if v = 1 then -1 else -10⟩

/- ------------------------------------------------------------------ -/
/- Claims.                                                            -/
/- ------------------------------------------------------------------ -/

/-- C7: an empty batch, or a batch containing an utterance of non-positive
valid length, is rejected by both `greedy_search_batch` and
`modified_beam_search`: the result is `none` (the embedding's image of the
failing assert / `pack_padded_sequence` error raised before the first
scoring call), for every model, log-add-exp primitive and beam width, and no
partial result is produced. -/
theorem claim_C7 (m : Model) (batch : List (Utt α)) (laexp : α → α → α)
    (beam : ℕ) (h : batch.length < 1 ∨ ∃ u ∈ batch, u.len ≤ 0) :
    greedy_search_batch m batch = none ∧
      modified_beam_search m laexp batch beam = none := by
  have hn : ¬(1 ≤ batch.length ∧ ∀ u ∈ batch, 0 < u.len) := by
    rintro ⟨hc1, hc2⟩
    rcases h with h | ⟨u, hu, hul⟩
    · omega
    · have := hc2 u hu
      omega
  constructor
  · rw [greedy_search_batch, if_neg hn]
  · rw [modified_beam_search, if_neg hn]

theorem claim_C7_witness :
    (([exUttZero].length < 1 ∨ ∃ u ∈ [exUttZero], u.len ≤ 0) ∧
      (greedy_search_batch exModel [exUttZero] = none ∧
        modified_beam_search exModel exLaexpZ [exUttZero] 4 = none)) ∧
    ((([] : List (Utt ℤ)).length < 1 ∨ ∃ u ∈ ([] : List (Utt ℤ)), u.len ≤ 0) ∧
      (greedy_search_batch exModel ([] : List (Utt ℤ)) = none ∧
        modified_beam_search exModel exLaexpZ ([] : List (Utt ℤ)) 4 = none)) :=
  ⟨⟨Or.inr ⟨exUttZero, List.mem_singleton.mpr rfl, by decide⟩,
    claim_C7 exModel [exUttZero] exLaexpZ 4
      (Or.inr ⟨exUttZero, List.mem_singleton.mpr rfl, by decide⟩)⟩,
   ⟨Or.inl (by decide),
    claim_C7 exModel [] exLaexpZ 4 (Or.inl (by decide))⟩⟩

/-- C9: when the model object has no `unk_id` attribute, the effective
unknown sentinel defaults to the blank id, so the sentinel-skip test of both
search loops suppresses exactly the blank id; in general a token other than
the blank id is suppressed only when the model defines `unk_id` as that
token. -/
theorem claim_C9 :
    (∀ m : Model, m.unk_id = none →
      m.unkEff = m.blank_id ∧
        ∀ v : ℤ, notSentinel m v = false ↔ v = m.blank_id) ∧
    (∀ (m : Model) (v : ℤ), notSentinel m v = false →
      v = m.blank_id ∨ m.unk_id = some v) := by
  constructor
  · intro m hm
    have heff : m.unkEff = m.blank_id := by rw [Model.unkEff, hm]; rfl
    refine ⟨heff, ?_⟩
    intro v
    rw [notSentinel, heff, decide_eq_false_iff_not]
    constructor
    · intro h
      by_contra hv
      exact h ⟨hv, hv⟩
    · intro h hcon
      exact hcon.1 h
  · intro m v h
    rw [notSentinel, decide_eq_false_iff_not] at h
    by_cases hb : v = m.blank_id
    · exact Or.inl hb
    · right
      have hu : v = m.unkEff := by
        by_contra hv
        exact h ⟨hb, hv⟩
      rw [Model.unkEff] at hu
      cases hx : m.unk_id with
      | none =>
        rw [hx] at hu
        exact absurd hu hb
      | some u =>
        rw [hx] at hu
        rw [hu]
        rfl

theorem claim_C9_witness :
    (exModel.unk_id = none ∧
      (exModel.unkEff = exModel.blank_id ∧
        ∀ v : ℤ, notSentinel exModel v = false ↔ v = exModel.blank_id)) ∧
    (notSentinel exModel (0 : ℤ) = false ∧
      ((0 : ℤ) = exModel.blank_id ∨ exModel.unk_id = some 0)) :=
  ⟨⟨rfl, claim_C9.1 exModel rfl⟩,
   ⟨by decide, claim_C9.2 exModel 0 (by decide)⟩⟩

/-- The active hypotheses of the single utterance of `[exUttC2]` when step 1
of `modified_beam_search exModel exLaexpZ [exUttC2] 2` begins (the state
after step 0). -/
def c2A : List (Hypothesis ℤ) :=
  ((beamStateAt exModel exLaexpZ [exUttC2] 2 1).1.getD 0
    HypothesisList.empty).values

/-- C2 is false on the code: in the run of
`modified_beam_search exModel exLaexpZ [exUttC2] 2`, step 1 builds two
candidates with the same key `"0_0_1"` — one that just emitted token 1 at
frame 1 (timestamp `[1]`, token score `-2`) and one that emitted it at frame
0 and now takes blank (timestamp `[0]`, token score `-1`) — and
`HypothesisList.add` merges them into a single entry, although their
timestamp sequences and their per-token score sequences differ. -/
theorem claim_C2_counterexample :
    (beamStateAt exModel exLaexpZ [exUttC2] 2 2).1
      = [addAll exLaexpZ
          (stepNewHyps exModel 2 (uttAtOf [exUttC2] 0) 1 c2A)
          HypothesisList.empty] ∧
    (stepNewHyps exModel 2 (uttAtOf [exUttC2] 0) 1 c2A).map
        (fun h => h.key) = ["0_0_1", "0_0_1"] ∧
    (stepNewHyps exModel 2 (uttAtOf [exUttC2] 0) 1 c2A).map
        (fun h => h.timestamp) = [[1], [0]] ∧
    (stepNewHyps exModel 2 (uttAtOf [exUttC2] 0) 1 c2A).map
        (fun h => h.scores) = [[-2], [-1]] ∧
    (addAll exLaexpZ (stepNewHyps exModel 2 (uttAtOf [exUttC2] 0) 1 c2A)
        HypothesisList.empty).values.length = 1 ∧
    ¬ ([1] = ([0] : List ℕ)) := by
  decide

/-- C2 (amended): two hypotheses merged by `HypothesisList.add` need not
have identical timestamp or score sequences (paths emitting the same tokens
at different frames collide, see the counterexample); the merge keeps
exactly the previously stored hypothesis's token/score/timestamp sequences,
discarding the incoming one's, and only combines the cumulative
log-probabilities. -/
theorem claim_C2_amended (laexp : α → α → α) (l : HypothesisList α)
    (hyp old : Hypothesis α) (h : l.lookup hyp.key = some old) :
    (l.add laexp hyp).lookup hyp.key
      = some ⟨old.ys, old.scores, laexp old.log_prob hyp.log_prob,
              old.timestamp⟩ := by
  rw [lookup_add_merge laexp hyp l (lookup_some_contains h), h]
  rfl

theorem claim_C2_amended_witness :
    ((⟨[("", ⟨[], [], 1, []⟩)]⟩ : HypothesisList ℤ).lookup
        ((⟨[], [], 2, []⟩ : Hypothesis ℤ)).key
        = some (⟨[], [], 1, []⟩ : Hypothesis ℤ)) ∧
    (((⟨[("", ⟨[], [], 1, []⟩)]⟩ : HypothesisList ℤ).add exLaexpZ
        ⟨[], [], 2, []⟩).lookup ((⟨[], [], 2, []⟩ : Hypothesis ℤ)).key
      = some (⟨[], [], exLaexpZ 1 2, []⟩ : Hypothesis ℤ)) :=
  ⟨by decide, claim_C2_amended exLaexpZ ⟨[("", ⟨[], [], 1, []⟩)]⟩
    ⟨[], [], 2, []⟩ ⟨[], [], 1, []⟩ (by decide)⟩

/-- C1: merge semantics of `HypothesisList.add` with `torch.logaddexp`, and
its consequence inside one beam-search step.  (1) Adding a hypothesis whose
key is present replaces the stored cumulative log-probability by
`log(exp(old) + exp(new))` while the stored token/score/timestamp sequences
are kept; (2) adding a hypothesis whose key is absent inserts it unchanged;
(3) each step's fresh per-utterance `HypothesisList` is exactly the fold of
`add` over the selected candidates; (4) hence when exactly two expansion
paths of one step produce the same key, the surviving entry keeps the first
path's sequences and its cumulative log-probability is
`log(exp(p1) + exp(p2))`. -/
theorem claim_C1 :
    (∀ (l : HypothesisList ℝ) (hyp old : Hypothesis ℝ),
        l.lookup hyp.key = some old →
        (l.add logSumExp hyp).lookup hyp.key
          = some ⟨old.ys, old.scores,
              Real.log (Real.exp old.log_prob + Real.exp hyp.log_prob),
              old.timestamp⟩) ∧
    (∀ (l : HypothesisList ℝ) (hyp : Hypothesis ℝ),
        l.containsKey hyp.key = false →
        (l.add logSumExp hyp).lookup hyp.key = some hyp) ∧
    (∀ (m : Model) (beam : ℕ) (laexp : ℝ → ℝ → ℝ) (u : Utt ℝ) (t : ℕ)
        (A : List (Hypothesis ℝ)),
        beamStepUtt m beam laexp u t A
          = addAll laexp (stepNewHyps m beam u t A) HypothesisList.empty) ∧
    (∀ (m : Model) (beam : ℕ) (u : Utt ℝ) (t : ℕ) (A : List (Hypothesis ℝ))
        (k : String) (h1 h2 : Hypothesis ℝ),
        (stepNewHyps m beam u t A).filter (fun h => h.key == k) = [h1, h2] →
        (beamStepUtt m beam logSumExp u t A).lookup k
          = some ⟨h1.ys, h1.scores,
              Real.log (Real.exp h1.log_prob + Real.exp h2.log_prob),
              h1.timestamp⟩) := by
  refine ⟨?_, ?_, ?_, ?_⟩
  · intro l hyp old h
    rw [lookup_add_merge logSumExp hyp l (lookup_some_contains h), h]
    rfl
  · intro l hyp h
    exact lookup_add_new logSumExp hyp l h
  · intro m beam laexp u t A
    rfl
  · intro m beam u t A k h1 h2 hfil
    show (addAll logSumExp (stepNewHyps m beam u t A)
        HypothesisList.empty).lookup k = _
    exact lookup_addAll_pair logSumExp k h1 h2 _ hfil

/-- Model used by the C1 witness: blank 0, no unknown id, context size 1,
vocabulary size 2. -/
def c1Model : Model := ⟨0, none, 1, 2⟩

/-- Real-valued utterance whose scoring function is constantly `-1`, so all
candidate values tie and the top-k keeps flat-index order. -/
def c1Utt : Utt ℝ := ⟨1, fun _ _ _ => -1⟩

/-- Active hypotheses for the C1 witness step: the paths `[7]` and `[7,1]`,
both with cumulative log-probability `0`. -/
def c1A : List (Hypothesis ℝ) := [⟨[7], [], 0, []⟩, ⟨[7, 1], [-1], 0, [0]⟩]

lemma c1_hconst : ∀ i < (jointVec c1Model c1Utt 1 c1A).length,
    ∀ j < (jointVec c1Model c1Utt 1 c1A).length,
    (jointVec c1Model c1Utt 1 c1A).getD i 0
      = (jointVec c1Model c1Utt 1 c1A).getD j 0 := by
  have hlen : (jointVec c1Model c1Utt 1 c1A).length = 4 := rfl
  intro i hi j hj
  rw [hlen] at hi hj
  interval_cases i <;> interval_cases j <;> rfl

lemma c1_sort : argsortDesc (jointVec c1Model c1Utt 1 c1A) = [0, 1, 2, 3] := by
  rw [argsortDesc_const c1_hconst]
  rfl

lemma c1_filter : (stepNewHyps c1Model 4 c1Utt 1 c1A).filter
    (fun h => h.key == "7_1")
    = [⟨[7, 1], [-1], 0 + -1, [1]⟩, ⟨[7, 1], [-1], 0 + -1, [0]⟩] := by
  rw [stepNewHyps, topkIndices, c1_sort]
  rfl

theorem claim_C1_witness :
    ((⟨[("", ⟨[], [], 1, []⟩)]⟩ : HypothesisList ℝ).lookup
        ((⟨[], [], 2, []⟩ : Hypothesis ℝ)).key
        = some (⟨[], [], 1, []⟩ : Hypothesis ℝ)) ∧
    (((⟨[("", ⟨[], [], 1, []⟩)]⟩ : HypothesisList ℝ).add logSumExp
        ⟨[], [], 2, []⟩).lookup ((⟨[], [], 2, []⟩ : Hypothesis ℝ)).key
      = some (⟨[], [], Real.log (Real.exp 1 + Real.exp 2), []⟩ :
          Hypothesis ℝ)) ∧
    ((HypothesisList.empty (α := ℝ)).containsKey
        ((⟨[9], [], 3, []⟩ : Hypothesis ℝ)).key = false) ∧
    ((HypothesisList.empty.add logSumExp
        (⟨[9], [], 3, []⟩ : Hypothesis ℝ)).lookup
        ((⟨[9], [], 3, []⟩ : Hypothesis ℝ)).key
      = some (⟨[9], [], 3, []⟩ : Hypothesis ℝ)) ∧
    ((stepNewHyps c1Model 4 c1Utt 1 c1A).filter (fun h => h.key == "7_1")
      = [⟨[7, 1], [-1], 0 + -1, [1]⟩, ⟨[7, 1], [-1], 0 + -1, [0]⟩]) ∧
    ((beamStepUtt c1Model 4 logSumExp c1Utt 1 c1A).lookup "7_1"
      = some (⟨[7, 1], [-1],
          Real.log (Real.exp (0 + -1) + Real.exp (0 + -1)), [1]⟩ :
            Hypothesis ℝ)) :=
  ⟨rfl,
   claim_C1.1 ⟨[("", ⟨[], [], 1, []⟩)]⟩ ⟨[], [], 2, []⟩ ⟨[], [], 1, []⟩ rfl,
   rfl,
   claim_C1.2.1 HypothesisList.empty ⟨[9], [], 3, []⟩ rfl,
   c1_filter,
   claim_C1.2.2.2 c1Model 4 c1Utt 1 c1A "7_1"
     ⟨[7, 1], [-1], 0 + -1, [1]⟩ ⟨[7, 1], [-1], 0 + -1, [0]⟩ c1_filter⟩

/-- Selection policy as claim C3 words it: arg-max of cumulative
log-probability divided by the number of EMITTED tokens, i.e. excluding the
context-padding prefix of size `C` (written from the claim, for comparison
with the code's `get_most_probable`). -/
def claimEmittedNormBest (C : ℕ) (l : HypothesisList α) : Hypothesis α :=
  pyMaxBy (fun h => h.log_prob / ((h.ys.length - C : ℕ) : α)) dHyp l.values

/-- C3 is false on the code: `get_most_probable(length_norm=True)` divides
by `len(hyp.ys)`, which INCLUDES the context prefix.  On the run
`modified_beam_search exModel exLaexpZ [exUttC3] 2` the final set holds
`[0,0,1]` (cumulative `-24`, one emitted token) and `[0,0,1,1]` (cumulative
`-44`, two emitted tokens); the code outputs `[1]`
(`-24/3 = -8 > -44/4 = -11`), while the claim's emitted-normalised arg-max
is `[1,1]` (`-44/2 = -22 > -24/1 = -24`).  All divisions are exact. -/
theorem claim_C3_counterexample :
    (modified_beam_search exModel exLaexpZ [exUttC3] 2).map
        DecodingResults.hyps = some [[1]] ∧
    bFinalLists exModel exLaexpZ [exUttC3] 2
      = [bDecodeUtt exModel 2 exLaexpZ exUttC3] ∧
    ((claimEmittedNormBest exModel.context_size
        (bDecodeUtt exModel 2 exLaexpZ exUttC3)).ys.drop
          exModel.context_size) = [1, 1] ∧
    ¬ (([1] : List ℤ) = [1, 1]) := by
  decide

/-- C3 (amended): every utterance's output hypothesis is the first one in
its final `HypothesisSet` maximising cumulative log-probability divided by
the FULL length of `ys` — the emitted tokens plus the context-padding prefix
of size `C` — not by the number of emitted tokens alone. -/
theorem claim_C3_amended :
    (∀ (m : Model) (laexp : α → α → α) (batch : List (Utt α)) (beam : ℕ),
        1 ≤ batch.length → (∀ u ∈ batch, 0 < u.len) →
        modified_beam_search m laexp batch beam = some
          ⟨batch.map (fun u =>
              ((bDecodeUtt m beam laexp u).get_most_probable true).timestamp),
           batch.map (fun u =>
              ((bDecodeUtt m beam laexp u).get_most_probable true).ys.drop
                m.context_size),
           batch.map (fun u =>
              ((bDecodeUtt m beam laexp u).get_most_probable true).scores)⟩) ∧
    (∀ l : HypothesisList α, l.values ≠ [] →
        l.get_most_probable true ∈ l.values ∧
        ∀ h ∈ l.values,
          h.log_prob / (h.ys.length : α)
            ≤ (l.get_most_probable true).log_prob /
                (((l.get_most_probable true).ys.length : α))) :=
  ⟨fun m laexp batch beam h1 h2 =>
      modified_beam_search_eq_map m laexp batch beam h1 h2,
   fun l hne => get_most_probable_spec l hne⟩

theorem claim_C3_amended_witness :
    ((1 ≤ ([exUttC3] : List (Utt ℤ)).length) ∧
      (∀ u ∈ ([exUttC3] : List (Utt ℤ)), 0 < u.len) ∧
      modified_beam_search exModel exLaexpZ [exUttC3] 2 = some
        ⟨[exUttC3].map (fun u =>
            ((bDecodeUtt exModel 2 exLaexpZ u).get_most_probable
              true).timestamp),
         [exUttC3].map (fun u =>
            ((bDecodeUtt exModel 2 exLaexpZ u).get_most_probable
              true).ys.drop exModel.context_size),
         [exUttC3].map (fun u =>
            ((bDecodeUtt exModel 2 exLaexpZ u).get_most_probable
              true).scores)⟩) ∧
    ((⟨[("", ⟨[], [], 5, []⟩)]⟩ : HypothesisList ℤ).values ≠ [] ∧
      ((⟨[("", ⟨[], [], 5, []⟩)]⟩ : HypothesisList ℤ).get_most_probable true
          ∈ (⟨[("", ⟨[], [], 5, []⟩)]⟩ : HypothesisList ℤ).values ∧
        ∀ h ∈ (⟨[("", ⟨[], [], 5, []⟩)]⟩ : HypothesisList ℤ).values,
          h.log_prob / (h.ys.length : ℤ)
            ≤ ((⟨[("", ⟨[], [], 5, []⟩)]⟩ :
                HypothesisList ℤ).get_most_probable true).log_prob /
                ((((⟨[("", ⟨[], [], 5, []⟩)]⟩ :
                  HypothesisList ℤ).get_most_probable true).ys.length : ℤ)))) :=
  ⟨⟨by decide, by decide,
    claim_C3_amended.1 exModel exLaexpZ [exUttC3] 2 (by decide) (by decide)⟩,
   ⟨by decide, claim_C3_amended.2 _ (by decide)⟩⟩

lemma permute_map_getD {γ : Type} (batch : List (Utt α)) (p : List ℕ)
    (hmemlt : ∀ i ∈ p, i < batch.length) (F : Utt α → List γ) :
    (p.map (fun i => batch.getD i dUtt)).map F
      = p.map (fun i => (batch.map F).getD i []) := by
  rw [List.map_map]
  apply List.map_congr_left
  intro i hi
  simp only [Function.comp]
  rw [getD_map_of_lt F batch i dUtt [] (hmemlt i hi)]

/-- C4: permutation invariance.  For a valid batch and any permutation `p`
of its positions, decoding the permuted batch (by either search) yields
exactly the permutation of the unpermuted per-utterance results: output
index `i` always corresponds to input utterance `i`. -/
theorem claim_C4 (m : Model) (laexp : α → α → α) (beam : ℕ)
    (batch : List (Utt α)) (p : List ℕ)
    (hp : p.Perm (List.range batch.length))
    (h1 : 1 ≤ batch.length) (h2 : ∀ u ∈ batch, 0 < u.len) :
    greedy_search_batch m (p.map (fun i => batch.getD i dUtt))
        = (greedy_search_batch m batch).map (fun r =>
            ⟨p.map (fun i => r.timestamps.getD i []),
             p.map (fun i => r.hyps.getD i []),
             p.map (fun i => r.scores.getD i [])⟩) ∧
    modified_beam_search m laexp (p.map (fun i => batch.getD i dUtt)) beam
        = (modified_beam_search m laexp batch beam).map (fun r =>
            ⟨p.map (fun i => r.timestamps.getD i []),
             p.map (fun i => r.hyps.getD i []),
             p.map (fun i => r.scores.getD i [])⟩) := by
  have hmemlt : ∀ i ∈ p, i < batch.length := fun i hi =>
    List.mem_range.mp (hp.mem_iff.mp hi)
  have hplen : p.length = batch.length :=
    hp.length_eq.trans (List.length_range _)
  have hpb1 : 1 ≤ (p.map (fun i => batch.getD i dUtt)).length := by
    rw [List.length_map, hplen]; exact h1
  have hpb2 : ∀ u ∈ p.map (fun i => batch.getD i dUtt), 0 < u.len := by
    intro u hu
    obtain ⟨i, hip, rfl⟩ := List.mem_map.mp hu
    exact h2 _ (getD_mem dUtt (hmemlt i hip))
  constructor
  · rw [greedy_search_batch_eq_map m _ hpb1 hpb2,
      greedy_search_batch_eq_map m batch h1 h2, Option.map_some']
    refine congrArg some ?_
    refine congrArg₂ (fun a q => DecodingResults.mk a q.1 q.2) ?_
      (congrArg₂ Prod.mk ?_ ?_)
    · exact permute_map_getD batch p hmemlt (fun u => (gDecodeUtt m u).ts)
    · exact permute_map_getD batch p hmemlt
        (fun u => (gDecodeUtt m u).hyp.drop m.context_size)
    · exact permute_map_getD batch p hmemlt (fun u => (gDecodeUtt m u).sc)
  · rw [modified_beam_search_eq_map m laexp _ beam hpb1 hpb2,
      modified_beam_search_eq_map m laexp batch beam h1 h2, Option.map_some']
    refine congrArg some ?_
    refine congrArg₂ (fun a q => DecodingResults.mk a q.1 q.2) ?_
      (congrArg₂ Prod.mk ?_ ?_)
    · exact permute_map_getD batch p hmemlt (fun u =>
        ((bDecodeUtt m beam laexp u).get_most_probable true).timestamp)
    · exact permute_map_getD batch p hmemlt (fun u =>
        ((bDecodeUtt m beam laexp u).get_most_probable true).ys.drop
          m.context_size)
    · exact permute_map_getD batch p hmemlt (fun u =>
        ((bDecodeUtt m beam laexp u).get_most_probable true).scores)

theorem claim_C4_witness :
    (([1, 0] : List ℕ).Perm
        (List.range ([exUttA, exUttB] : List (Utt ℤ)).length) ∧
      1 ≤ ([exUttA, exUttB] : List (Utt ℤ)).length ∧
      (∀ u ∈ ([exUttA, exUttB] : List (Utt ℤ)), 0 < u.len)) ∧
    (greedy_search_batch exModel
        (([1, 0] : List ℕ).map
          (fun i => ([exUttA, exUttB] : List (Utt ℤ)).getD i dUtt))
        = (greedy_search_batch exModel [exUttA, exUttB]).map (fun r =>
            ⟨([1, 0] : List ℕ).map (fun i => r.timestamps.getD i []),
             ([1, 0] : List ℕ).map (fun i => r.hyps.getD i []),
             ([1, 0] : List ℕ).map (fun i => r.scores.getD i [])⟩) ∧
      modified_beam_search exModel exLaexpZ
        (([1, 0] : List ℕ).map
          (fun i => ([exUttA, exUttB] : List (Utt ℤ)).getD i dUtt)) 2
        = (modified_beam_search exModel exLaexpZ [exUttA, exUttB] 2).map
            (fun r =>
              ⟨([1, 0] : List ℕ).map (fun i => r.timestamps.getD i []),
               ([1, 0] : List ℕ).map (fun i => r.hyps.getD i []),
               ([1, 0] : List ℕ).map (fun i => r.scores.getD i [])⟩)) :=
  ⟨⟨by decide, by decide, by decide⟩,
   claim_C4 exModel exLaexpZ 2 [exUttA, exUttB] [1, 0] (by decide)
     (by decide) (by decide)⟩

lemma greedy_result_fields (m : Model) (batch : List (Utt α))
    (r : DecodingResults α)
    (h1 : 1 ≤ batch.length) (h2 : ∀ u ∈ batch, 0 < u.len)
    (hr : greedy_search_batch m batch = some r) :
    r.timestamps = batch.map (fun u => (gDecodeUtt m u).ts) ∧
    r.hyps = batch.map (fun u => (gDecodeUtt m u).hyp.drop m.context_size) ∧
    r.scores = batch.map (fun u => (gDecodeUtt m u).sc) := by
  rw [greedy_search_batch_eq_map m batch h1 h2] at hr
  have := Option.some.inj hr
  rw [← this]
  exact ⟨rfl, rfl, rfl⟩

lemma beam_result_fields (m : Model) (laexp : α → α → α)
    (batch : List (Utt α)) (beam : ℕ) (r : DecodingResults α)
    (h1 : 1 ≤ batch.length) (h2 : ∀ u ∈ batch, 0 < u.len)
    (hr : modified_beam_search m laexp batch beam = some r) :
    r.timestamps = batch.map (fun u =>
        ((bDecodeUtt m beam laexp u).get_most_probable true).timestamp) ∧
    r.hyps = batch.map (fun u =>
        ((bDecodeUtt m beam laexp u).get_most_probable true).ys.drop
          m.context_size) ∧
    r.scores = batch.map (fun u =>
        ((bDecodeUtt m beam laexp u).get_most_probable true).scores) := by
  rw [modified_beam_search_eq_map m laexp batch beam h1 h2] at hr
  have := Option.some.inj hr
  rw [← this]
  exact ⟨rfl, rfl, rfl⟩

/-- C5: sentinel handling.  (1) In a greedy step, a sentinel arg-max leaves
the state unchanged, any other token appends token, frame index and
token-level log-probability; (2) in a beam-search step, every built
candidate comes from a parent in `A` — a sentinel token keeps the parent's
sequences and only updates the cumulative log-probability to the candidate
value, any other token appends token, token-level log-probability and frame
index; (3) and (4): consequently neither search ever emits the blank id or
the effective unknown id in its returned token sequences. -/
theorem claim_C5 :
    (∀ (m : Model) (u : Utt α) (t : ℕ) (s : GState α),
      (notSentinel m ((argmaxList (gRow m u t
          (lastContext m.context_size s.hyp)) : ℕ) : ℤ) = false →
        gUpdate m u t s = s) ∧
      (notSentinel m ((argmaxList (gRow m u t
          (lastContext m.context_size s.hyp)) : ℕ) : ℤ) = true →
        gUpdate m u t s
          = ⟨s.hyp ++ [((argmaxList (gRow m u t
                (lastContext m.context_size s.hyp)) : ℕ) : ℤ)],
             s.ts ++ [t],
             s.sc ++ [(gRow m u t (lastContext m.context_size s.hyp)).getD
               (argmaxList (gRow m u t (lastContext m.context_size s.hyp)))
                 0]⟩)) ∧
    (∀ (m : Model) (u : Utt α) (t : ℕ) (A : List (Hypothesis α)) (idx : ℕ),
      idx / m.vocab_size < A.length →
      ∃ hp, hp ∈ A ∧
        ((notSentinel m ((idx % m.vocab_size : ℕ) : ℤ) = true ∧
          mkCand m u t A idx = ⟨hp.ys ++ [((idx % m.vocab_size : ℕ) : ℤ)],
            hp.scores ++ [(tokVec m u t A).getD idx 0],
            (jointVec m u t A).getD idx 0, hp.timestamp ++ [t]⟩) ∨
         (notSentinel m ((idx % m.vocab_size : ℕ) : ℤ) = false ∧
          mkCand m u t A idx = ⟨hp.ys, hp.scores,
            (jointVec m u t A).getD idx 0, hp.timestamp⟩))) ∧
    (∀ (m : Model) (batch : List (Utt α)) (r : DecodingResults α),
      1 ≤ m.context_size → 1 ≤ batch.length → (∀ u ∈ batch, 0 < u.len) →
      greedy_search_batch m batch = some r →
      ∀ i tok, tok ∈ r.hyps.getD i [] →
        tok ≠ m.blank_id ∧ tok ≠ m.unkEff) ∧
    (∀ (m : Model) (laexp : α → α → α) (batch : List (Utt α)) (beam : ℕ)
        (r : DecodingResults α),
      1 ≤ batch.length → (∀ u ∈ batch, 0 < u.len) →
      modified_beam_search m laexp batch beam = some r →
      ∀ i tok, tok ∈ r.hyps.getD i [] →
        tok ≠ m.blank_id ∧ tok ≠ m.unkEff) := by
  refine ⟨?_, ?_, ?_, ?_⟩
  · intro m u t s
    constructor
    · intro h
      simp only [gUpdate]
      rw [if_neg (by rw [h]; exact Bool.false_ne_true)]
    · intro h
      simp only [gUpdate]
      rw [if_pos h]
  · intro m u t A idx h
    exact mkCand_cases m u t A idx h
  · intro m batch r hctx h1 h2 hr i tok htok
    obtain ⟨_, hhy, _⟩ := greedy_result_fields m batch r h1 h2 hr
    rw [hhy] at htok
    by_cases hi : i < batch.length
    · rw [getD_map_of_lt _ batch i dUtt [] hi] at htok
      have hinv := gIter_inv m (batch.getD i dUtt) hctx
        (batch.getD i dUtt).len.toNat
      have hsent := hinv.2.2.1 tok htok
      exact of_decide_eq_true hsent
    · rw [List.getD_eq_default _ _ (by rw [List.length_map]; omega)] at htok
      exact absurd htok (List.not_mem_nil tok)
  · intro m laexp batch beam r h1 h2 hr i tok htok
    obtain ⟨_, hhy, _⟩ := beam_result_fields m laexp batch beam r h1 h2 hr
    rw [hhy] at htok
    by_cases hi : i < batch.length
    · rw [getD_map_of_lt _ batch i dUtt [] hi] at htok
      have hinv := bDecode_best_outInv m beam laexp (batch.getD i dUtt)
      have hsent := hinv.2.2.1 tok htok
      exact of_decide_eq_true hsent
    · rw [List.getD_eq_default _ _ (by rw [List.length_map]; omega)] at htok
      exact absurd htok (List.not_mem_nil tok)

theorem claim_C5_witness :
    ((notSentinel exModel ((argmaxList (gRow exModel exUttA 1
        (lastContext exModel.context_size [(-1 : ℤ), 0])) : ℕ) : ℤ) = false)
      ∧ gUpdate exModel exUttA 1 ⟨[-1, 0], [], []⟩ = ⟨[-1, 0], [], []⟩) ∧
    ((1 : ℕ) / exModel.vocab_size < ([⟨[0, 0], [], 0, []⟩] :
        List (Hypothesis ℤ)).length ∧
      ∃ hp, hp ∈ ([⟨[0, 0], [], 0, []⟩] : List (Hypothesis ℤ)) ∧
        ((notSentinel exModel (((1 : ℕ) % exModel.vocab_size : ℕ) : ℤ)
            = true ∧
          mkCand exModel exUttA 0 [⟨[0, 0], [], 0, []⟩] 1
            = ⟨hp.ys ++ [(((1 : ℕ) % exModel.vocab_size : ℕ) : ℤ)],
               hp.scores ++ [(tokVec exModel exUttA 0
                 [⟨[0, 0], [], 0, []⟩]).getD 1 0],
               (jointVec exModel exUttA 0 [⟨[0, 0], [], 0, []⟩]).getD 1 0,
               hp.timestamp ++ [0]⟩) ∨
         (notSentinel exModel (((1 : ℕ) % exModel.vocab_size : ℕ) : ℤ)
            = false ∧
          mkCand exModel exUttA 0 [⟨[0, 0], [], 0, []⟩] 1
            = ⟨hp.ys, hp.scores,
               (jointVec exModel exUttA 0 [⟨[0, 0], [], 0, []⟩]).getD 1 0,
               hp.timestamp⟩))) ∧
    ((1 ≤ exModel.context_size ∧
        greedy_search_batch exModel [exUttA, exUttB]
          = some ⟨[[0], []], [[1], []], [[-1], []]⟩ ∧
        (1 : ℤ) ∈ (⟨[[0], []], [[1], []], [[-1], []]⟩ :
          DecodingResults ℤ).hyps.getD 0 []) ∧
      ((1 : ℤ) ≠ exModel.blank_id ∧ (1 : ℤ) ≠ exModel.unkEff)) ∧
    ((modified_beam_search exModel exLaexpZ [exUttC3] 2
          = some ⟨[[1]], [[1]], [[-22]]⟩ ∧
        (1 : ℤ) ∈ (⟨[[1]], [[1]], [[-22]]⟩ :
          DecodingResults ℤ).hyps.getD 0 []) ∧
      ((1 : ℤ) ≠ exModel.blank_id ∧ (1 : ℤ) ≠ exModel.unkEff)) :=
  ⟨⟨by decide, (claim_C5.1 exModel exUttA 1 ⟨[-1, 0], [], []⟩).1 (by decide)⟩,
   ⟨by decide, claim_C5.2.1 exModel exUttA 0 [⟨[0, 0], [], 0, []⟩] 1
      (by decide)⟩,
   ⟨⟨by decide, by decide, by decide⟩,
    claim_C5.2.2.1 exModel [exUttA, exUttB] ⟨[[0], []], [[1], []], [[-1], []]⟩
      (by decide) (by decide) (by decide) (by decide) 0 1 (by decide)⟩,
   ⟨⟨by decide, by decide⟩,
    claim_C5.2.2.2 exModel exLaexpZ [exUttC3] 2 ⟨[[1]], [[1]], [[-22]]⟩
      (by decide) (by decide) (by decide) 0 1 (by decide)⟩⟩

/-- C6: for every valid batch (and, for the greedy search, a positive
context size, which every transducer decoder has) the returned per-utterance
timestamp, token and score sequences all have equal lengths. -/
theorem claim_C6 :
    (∀ (m : Model) (batch : List (Utt α)) (r : DecodingResults α),
      1 ≤ m.context_size → 1 ≤ batch.length → (∀ u ∈ batch, 0 < u.len) →
      greedy_search_batch m batch = some r →
      ∀ i, (r.timestamps.getD i []).length = (r.hyps.getD i []).length ∧
        (r.hyps.getD i []).length = (r.scores.getD i []).length) ∧
    (∀ (m : Model) (laexp : α → α → α) (batch : List (Utt α)) (beam : ℕ)
        (r : DecodingResults α),
      1 ≤ batch.length → (∀ u ∈ batch, 0 < u.len) →
      modified_beam_search m laexp batch beam = some r →
      ∀ i, (r.timestamps.getD i []).length = (r.hyps.getD i []).length ∧
        (r.hyps.getD i []).length = (r.scores.getD i []).length) := by
  constructor
  · intro m batch r hctx h1 h2 hr i
    obtain ⟨hts, hhy, hsc⟩ := greedy_result_fields m batch r h1 h2 hr
    rw [hts, hhy, hsc]
    by_cases hi : i < batch.length
    · rw [getD_map_of_lt _ batch i dUtt [] hi,
        getD_map_of_lt _ batch i dUtt [] hi,
        getD_map_of_lt _ batch i dUtt [] hi]
      have hinv : GInv m (batch.getD i dUtt).len.toNat
          (gDecodeUtt m (batch.getD i dUtt)) :=
        gIter_inv m (batch.getD i dUtt) hctx (batch.getD i dUtt).len.toNat
      obtain ⟨hl1, hl2, _, _, _⟩ := hinv
      constructor
      · rw [List.length_drop]
        omega
      · rw [List.length_drop]
        omega
    · rw [List.getD_eq_default _ _ (by rw [List.length_map]; omega),
        List.getD_eq_default _ _ (by rw [List.length_map]; omega),
        List.getD_eq_default _ _ (by rw [List.length_map]; omega)]
      exact ⟨rfl, rfl⟩
  · intro m laexp batch beam r h1 h2 hr i
    obtain ⟨hts, hhy, hsc⟩ := beam_result_fields m laexp batch beam r h1 h2 hr
    rw [hts, hhy, hsc]
    by_cases hi : i < batch.length
    · rw [getD_map_of_lt _ batch i dUtt [] hi,
        getD_map_of_lt _ batch i dUtt [] hi,
        getD_map_of_lt _ batch i dUtt [] hi]
      obtain ⟨hl1, hl2, _, _⟩ := bDecode_best_outInv m beam laexp
        (batch.getD i dUtt)
      exact ⟨hl1.symm, hl1.trans hl2.symm⟩
    · rw [List.getD_eq_default _ _ (by rw [List.length_map]; omega),
        List.getD_eq_default _ _ (by rw [List.length_map]; omega),
        List.getD_eq_default _ _ (by rw [List.length_map]; omega)]
      exact ⟨rfl, rfl⟩

theorem claim_C6_witness :
    ((1 ≤ exModel.context_size ∧
        greedy_search_batch exModel [exUttA, exUttB]
          = some ⟨[[0], []], [[1], []], [[-1], []]⟩) ∧
      (((⟨[[0], []], [[1], []], [[-1], []]⟩ :
          DecodingResults ℤ).timestamps.getD 0 []).length
        = ((⟨[[0], []], [[1], []], [[-1], []]⟩ :
          DecodingResults ℤ).hyps.getD 0 []).length ∧
       ((⟨[[0], []], [[1], []], [[-1], []]⟩ :
          DecodingResults ℤ).hyps.getD 0 []).length
        = ((⟨[[0], []], [[1], []], [[-1], []]⟩ :
          DecodingResults ℤ).scores.getD 0 []).length)) ∧
    ((modified_beam_search exModel exLaexpZ [exUttC3] 2
          = some ⟨[[1]], [[1]], [[-22]]⟩) ∧
      (((⟨[[1]], [[1]], [[-22]]⟩ :
          DecodingResults ℤ).timestamps.getD 0 []).length
        = ((⟨[[1]], [[1]], [[-22]]⟩ :
          DecodingResults ℤ).hyps.getD 0 []).length ∧
       ((⟨[[1]], [[1]], [[-22]]⟩ :
          DecodingResults ℤ).hyps.getD 0 []).length
        = ((⟨[[1]], [[1]], [[-22]]⟩ :
          DecodingResults ℤ).scores.getD 0 []).length)) :=
  ⟨⟨⟨by decide, by decide⟩,
    claim_C6.1 exModel [exUttA, exUttB] ⟨[[0], []], [[1], []], [[-1], []]⟩
      (by decide) (by decide) (by decide) (by decide) 0⟩,
   ⟨by decide,
    claim_C6.2 exModel exLaexpZ [exUttC3] 2 ⟨[[1]], [[1]], [[-22]]⟩
      (by decide) (by decide) (by decide) 0⟩⟩

/-- C10: the returned timestamp sequence of every utterance is strictly
increasing, for both searches: a hypothesis receives at most one token per
time step, and the step index strictly increases. -/
theorem claim_C10 :
    (∀ (m : Model) (batch : List (Utt α)) (r : DecodingResults α),
      1 ≤ batch.length → (∀ u ∈ batch, 0 < u.len) →
      greedy_search_batch m batch = some r →
      ∀ i, (r.timestamps.getD i []).Pairwise (fun a b => a < b)) ∧
    (∀ (m : Model) (laexp : α → α → α) (batch : List (Utt α)) (beam : ℕ)
        (r : DecodingResults α),
      1 ≤ batch.length → (∀ u ∈ batch, 0 < u.len) →
      modified_beam_search m laexp batch beam = some r →
      ∀ i, (r.timestamps.getD i []).Pairwise (fun a b => a < b)) := by
  constructor
  · intro m batch r h1 h2 hr i
    obtain ⟨hts, _, _⟩ := greedy_result_fields m batch r h1 h2 hr
    rw [hts]
    by_cases hi : i < batch.length
    · rw [getD_map_of_lt _ batch i dUtt [] hi]
      exact (gIter_ts_inv m (batch.getD i dUtt)
        (batch.getD i dUtt).len.toNat).1
    · rw [List.getD_eq_default _ _ (by rw [List.length_map]; omega)]
      exact List.Pairwise.nil
  · intro m laexp batch beam r h1 h2 hr i
    obtain ⟨hts, _, _⟩ := beam_result_fields m laexp batch beam r h1 h2 hr
    rw [hts]
    by_cases hi : i < batch.length
    · rw [getD_map_of_lt _ batch i dUtt [] hi]
      exact (bDecode_best_outInv m beam laexp (batch.getD i dUtt)).2.2.2
    · rw [List.getD_eq_default _ _ (by rw [List.length_map]; omega)]
      exact List.Pairwise.nil

theorem claim_C10_witness :
    ((greedy_search_batch exModel [exUttA, exUttB]
        = some ⟨[[0], []], [[1], []], [[-1], []]⟩) ∧
      ((⟨[[0], []], [[1], []], [[-1], []]⟩ :
        DecodingResults ℤ).timestamps.getD 0 []).Pairwise
          (fun a b => a < b)) ∧
    ((modified_beam_search exModel exLaexpZ [exUttD] 1
        = some ⟨[[0, 1]], [[1, 1]], [[-1, -1]]⟩) ∧
      ((⟨[[0, 1]], [[1, 1]], [[-1, -1]]⟩ :
        DecodingResults ℤ).timestamps.getD 0 []).Pairwise
          (fun a b => a < b)) :=
  ⟨⟨by decide,
    claim_C10.1 exModel [exUttA, exUttB] ⟨[[0], []], [[1], []], [[-1], []]⟩
      (by decide) (by decide) (by decide) 0⟩,
   ⟨by decide,
    claim_C10.2 exModel exLaexpZ [exUttD] 1 ⟨[[0, 1]], [[1, 1]], [[-1, -1]]⟩
      (by decide) (by decide) (by decide) 0⟩⟩

/-- C8: candidate selection.  (1) One step's candidates are exactly the
top-`beam` flat positions of the utterance's candidate vector; (2) that
vector holds, at flat position `hIdx * vocab_size + v`, the parent's
cumulative log-probability plus the token log-probability; (3) the top-`k`
model (`torch.topk` embedded as value-descending, earlier-flat-index-first
selection) picks exactly `k` distinct in-range positions, in sorted order,
and every unselected position either has a strictly smaller value than every
selected one or ties with a selected position of smaller flat index.  The
selection is a pure function of the scores, hence deterministic. -/
theorem claim_C8 :
    (∀ (m : Model) (beam : ℕ) (u : Utt α) (t : ℕ) (A : List (Hypothesis α)),
        stepNewHyps m beam u t A
          = (topkIndices beam (jointVec m u t A)).map (mkCand m u t A)) ∧
    (∀ (m : Model) (u : Utt α) (t : ℕ) (A : List (Hypothesis α))
        (hIdx v : ℕ), hIdx < A.length → v < m.vocab_size →
        (jointVec m u t A).getD (hIdx * m.vocab_size + v) 0
          = (A.getD hIdx dHyp).log_prob +
              u.score t (lastContext m.context_size (A.getD hIdx dHyp).ys)
                v) ∧
    (∀ (v : List α) (k : ℕ), k ≤ v.length →
        (topkIndices k v).length = k ∧
        (∀ i ∈ topkIndices k v, i < v.length) ∧
        (topkIndices k v).Nodup ∧
        (topkIndices k v).Pairwise (valLe v) ∧
        (∀ i ∈ topkIndices k v, ∀ j, j < v.length → j ∉ topkIndices k v →
          v.getD j 0 < v.getD i 0 ∨
            (v.getD i 0 = v.getD j 0 ∧ i < j))) := by
  refine ⟨fun m beam u t A => rfl,
    fun m u t A hIdx v h1 h2 => jointVec_getD m u t A hIdx v h1 h2,
    fun v k hk => ⟨topkIndices_length k v hk,
      fun i hi => topkIndices_mem_lt hi,
      topkIndices_nodup k v,
      topkIndices_sorted k v,
      fun i hi j hj hjn => topkIndices_complete hi hj hjn⟩⟩

theorem claim_C8_witness :
    ((2 : ℕ) ≤ ([3, 1, 2, 1] : List ℤ).length ∧
      (0 ∈ topkIndices 2 ([3, 1, 2, 1] : List ℤ)) ∧
      (1 < ([3, 1, 2, 1] : List ℤ).length) ∧
      (1 ∉ topkIndices 2 ([3, 1, 2, 1] : List ℤ))) ∧
    ((topkIndices 2 ([3, 1, 2, 1] : List ℤ)).length = 2 ∧
      (([3, 1, 2, 1] : List ℤ).getD 1 0 < ([3, 1, 2, 1] : List ℤ).getD 0 0 ∨
        (([3, 1, 2, 1] : List ℤ).getD 0 0 = ([3, 1, 2, 1] : List ℤ).getD 1 0 ∧
          (0 : ℕ) < 1))) ∧
    (stepNewHyps exModel 2 exUttA 0 [⟨[0, 0], [], 0, []⟩]
      = (topkIndices 2
          (jointVec exModel exUttA 0 [⟨[0, 0], [], 0, []⟩])).map
          (mkCand exModel exUttA 0 [⟨[0, 0], [], 0, []⟩])) ∧
    ((0 : ℕ) < ([⟨[0, 0], [], 0, []⟩] : List (Hypothesis ℤ)).length ∧
      (1 : ℕ) < exModel.vocab_size ∧
      (jointVec exModel exUttA 0
          [(⟨[0, 0], [], 0, []⟩ : Hypothesis ℤ)]).getD
          (0 * exModel.vocab_size + 1) 0
        = ((([⟨[0, 0], [], 0, []⟩] :
              List (Hypothesis ℤ)).getD 0 dHyp).log_prob +
            exUttA.score 0 (lastContext exModel.context_size
              ((([⟨[0, 0], [], 0, []⟩] :
                List (Hypothesis ℤ)).getD 0 dHyp)).ys) 1)) :=
  ⟨⟨by decide, by decide, by decide, by decide⟩,
   ⟨(claim_C8.2.2 [3, 1, 2, 1] 2 (by decide)).1,
    (claim_C8.2.2 [3, 1, 2, 1] 2 (by decide)).2.2.2.2 0 (by decide) 1
      (by decide) (by decide)⟩,
   claim_C8.1 exModel 2 exUttA 0 [⟨[0, 0], [], 0, []⟩],
   ⟨by decide, by decide,
    claim_C8.2.1 exModel exUttA 0 [⟨[0, 0], [], 0, []⟩] 0 1 (by decide)
      (by decide)⟩⟩

end BeamSearch
